import Mathlib

/-!
The chronological-consistency resolver of gitcmttime.

A shallow embedding of `repository/commit.go`, `repository/repository.go`,
`repository/helpers.go` and `main.go`, followed by theorems about it.

Modelling conventions.

* `plumbing.Hash` is a natural number; the zero value of the Go array type is `zeroHash`.
* `time.Time` is an `Int`, the number of seconds relative to the Unix epoch. Commit signatures
  carry whole seconds, `epoch` is `time.Unix(0, 0)`, `t.Add(time.Second)` is `t + 1`,
  `t.After(u)` is `u < t` and `t.Before(u)` is `t < u`. Times before the epoch are negative.
* A `*commitStruct` is represented by the id of the node it points to: every node is owned by
  `r.commits` under its id, and `nil` is `none`.
* A Go map is represented by the history of its assignments, most recent first: `m[k] = v`
  puts `(k, v)` in front, `m[k]` reads the first pair with key `k`. The number of pairs with
  key `k` is therefore the number of assignments made to `k`.
* `r.git` is the object store: the list of commit objects of the repository.
  `CommitObject` fails (`none`) when no object has the requested hash.
* A report is the list of the records it prints; the rendering of a time as text and the
  names and addresses of author and committer are left out.
* The recursion of `addCommit` is driven by a fuel argument: `none` means that the fuel ran
  out, `some` carries the state after the call and the pair `(*time.Time, error)` it returns.
-/

namespace Gitcmttime

/-- The type `plumbing.Hash`. -/
abbrev plumbing.Hash := Nat

/-- The zero value of `plumbing.Hash`, the content of an uninitialised `newestParentId`. -/
def zeroHash : plumbing.Hash := 0

/-- The sentinel `var epoch = time.Unix(0, 0)`. -/
def epoch : Int := 0

abbrev TypeDateTime := Int

abbrev TypeOutput := Int

def TypeDTAuthor : TypeDateTime := 0

def TypeDTCommitter : TypeDateTime := 1

def TypeOutShort : TypeOutput := 0

def TypeOutLong : TypeOutput := 1

def TypeOutErrors : TypeOutput := 1

/-- The fields of go-git's `object.Commit` that the program reads. -/
structure Commit where
  Hash : plumbing.Hash
  AuthorWhen : Int
  CommitterWhen : Int
  ParentHashes : List plumbing.Hash
  deriving DecidableEq

/-- The node type `commitStruct`; `children` and `parents` hold the keys of the Go maps. -/
structure commitStruct where
  id : plumbing.Hash
  when : Int
  children : List plumbing.Hash
  parents : List plumbing.Hash
  deriving DecidableEq

/-- The record `changeStruct`. The embedded `*commitStruct` is represented by the two fields
that are read through it, `id` and `when`; both are written once, in `createCommitStruct`.
The field `from` is spelled `from_`. -/
structure changeStruct where
  id : plumbing.Hash
  when : Int
  new : Int
  from_ : plumbing.Hash
  deriving DecidableEq

/-- Reading `m[k]` with the comma-ok form: the most recent assignment to `k`. -/
def mapGet {α : Type} : List (plumbing.Hash × α) → plumbing.Hash → Option α
  | [], _ => none
  | (k', v) :: rest, k => if k = k' then some v else mapGet rest k

/-- The assignment `m[k] = v`. -/
def mapSet {α : Type} (m : List (plumbing.Hash × α)) (k : plumbing.Hash) (v : α) :
    List (plumbing.Hash × α) :=
  (k, v) :: m

/-- A write through the pointer stored under `k`: the node is updated in place. -/
def mapModify {α : Type} (k : plumbing.Hash) (f : α → α) :
    List (plumbing.Hash × α) → List (plumbing.Hash × α)
  | [] => []
  | (k', v) :: rest =>
    if k' = k then (k', f v) :: mapModify k f rest else (k', v) :: mapModify k f rest

/-- The number of assignments made to key `k`. -/
def mapCount {α : Type} : List (plumbing.Hash × α) → plumbing.Hash → Nat
  | [], _ => 0
  | (k', _) :: rest, k => if k = k' then mapCount rest k + 1 else mapCount rest k

/-- The method `commitStruct.addChild`: nothing for `nil` or for a child that is already
registered, otherwise the child is added under its id. -/
def commitStruct.addChild (c : commitStruct) (cs : Option plumbing.Hash) : commitStruct :=
  match cs with
  | none => c
  | some cid =>
    if cid ∈ c.children then c
    else { c with children := c.children ++ [cid] }

structure Repository where
  git : List Commit
  commits : List (plumbing.Hash × commitStruct)
  changes : List (plumbing.Hash × changeStruct)
  typeDT : TypeDateTime
  deriving DecidableEq

/-- The call `r.git.CommitObject(h)`: the object with hash `h`, or an error. -/
def CommitObject (git : List Commit) (h : plumbing.Hash) : Option Commit :=
  git.find? (fun c => decide (c.Hash = h))

/-- The time `createCommitStruct` stores in `when`: the author time in author mode, the
committer time in every other mode. -/
def Repository.commitWhen (r : Repository) (current : Commit) : Int :=
  if r.typeDT = TypeDTAuthor then current.AuthorWhen else current.CommitterWhen

/-- The method `createCommitStruct`: builds the node and registers it in `r.commits`. -/
def Repository.createCommitStruct (r : Repository) (current : Commit) :
    Repository × commitStruct :=
  let commit : commitStruct :=
    { id := current.Hash, when := r.commitWhen current, children := [], parents := [] }
  ({ r with commits := mapSet r.commits commit.id commit }, commit)

/-- The call `p.addChild(child)` on the node that the pointer `p` designates. -/
def Repository.addChild (r : Repository) (p : plumbing.Hash) (child : Option plumbing.Hash) :
    Repository :=
  { r with commits := mapModify p (fun c => c.addChild child) r.commits }

/-- The method `createChange`: the corrected time is `new` plus one second. -/
def Repository.createChange (r : Repository) (cs : commitStruct) (new : Int)
    (source : plumbing.Hash) : Repository × changeStruct :=
  let change : changeStruct :=
    { id := cs.id, when := cs.when, new := new + 1, from_ := source }
  ({ r with changes := mapSet r.changes cs.id change }, change)

/-- The pair `(*time.Time, error)` returned by `addCommit`. -/
structure Ret where
  dt : Int
  err : Bool
  deriving DecidableEq

/-- How the loop over `ParentHashes` ends: it runs to its end with the newest parent time and
its id, or it leaves `addCommit` with `return &epoch, err`. -/
inductive LoopOut where
  | done (r : Repository) (newestParentDT : Int) (newestParentId : plumbing.Hash)
  | abort (r : Repository)
  deriving DecidableEq

/-- The loop `for _, parentid := range currentGitObject.ParentHashes` of `addCommit`;
`recur` is the recursive call. -/
def parentsLoop
    (recur : Repository → Option plumbing.Hash → Commit → Option (Repository × Ret))
    (currentCommit : plumbing.Hash) :
    List plumbing.Hash → Repository → Int → plumbing.Hash → Option LoopOut
  | [], r, newestParentDT, newestParentId => some (.done r newestParentDT newestParentId)
  | parentid :: rest, r, newestParentDT, newestParentId =>
    match CommitObject r.git parentid with
    | none => some (.abort r)
    | some parentGitObject =>
      match recur r (some currentCommit) parentGitObject with
      | none => none
      | some (r1, ret) =>
        if ret.err then
          parentsLoop recur currentCommit rest r1 newestParentDT newestParentId
        else if newestParentDT < ret.dt then
          parentsLoop recur currentCommit rest r1 ret.dt parentid
        else
          parentsLoop recur currentCommit rest r1 newestParentDT newestParentId

/-- The method `addCommit`. -/
def addCommit : Nat → Repository → Option plumbing.Hash → Commit → Option (Repository × Ret)
  | 0, _, _, _ => none
  | fuel + 1, r, child, currentGitObject =>
    match mapGet r.commits currentGitObject.Hash with
    | some current =>
      some (r.addChild currentGitObject.Hash child, { dt := current.when, err := false })
    | none =>
      let created := r.createCommitStruct currentGitObject
      let currentCommit := created.2
      let r2 := created.1.addChild currentCommit.id child
      match parentsLoop (addCommit fuel) currentCommit.id currentGitObject.ParentHashes
          r2 epoch zeroHash with
      | none => none
      | some (.abort r3) => some (r3, { dt := epoch, err := true })
      | some (.done r3 newestParentDT newestParentId) =>
        if currentCommit.when < newestParentDT then
          let changed := r3.createChange currentCommit newestParentDT newestParentId
          some (changed.1, { dt := changed.2.new, err := false })
        else
          some (r3, { dt := currentCommit.when, err := false })

/-- The iteration `(*it).ForEach(...)` of `OpenRepository`: `addCommit(nil, c)` for every
commit the iterator yields, the results being dropped. -/
def forEachCommit (fuel : Nat) : List Commit → Repository → Option Repository
  | [], r => some r
  | commitGitObject :: rest, r =>
    match addCommit fuel r none commitGitObject with
    | none => none
    | some (r1, _) => forEachCommit fuel rest r1

/-- The function `OpenRepository`. The outcome of `getCommitsIterator` is given by `git` (the
opened object store, `none` when opening fails) and `it` (the commits the iterator yields).
The outer `Option` is the fuel of the traversal, the inner one the returned error. -/
def OpenRepository (fuel : Nat) (git : Option (List Commit)) (it : List Commit)
    (typedt : TypeDateTime) : Option (Option Repository) :=
  if typedt ≠ TypeDTAuthor ∧ typedt ≠ TypeDTCommitter then some none
  else
    match git with
    | none => some none
    | some store =>
      let r : Repository := { git := store, commits := [], changes := [], typeDT := typedt }
      match forEachCommit fuel it r with
      | none => none
      | some r1 => some (some r1)

/-- The resolved timestamp of a commit in a state: the corrected time of its Change when it
has one, its own timestamp otherwise; `none` for a commit that is not in the cache. -/
def resolved (r : Repository) (h : plumbing.Hash) : Option Int :=
  match mapGet r.changes h with
  | some ch => some ch.new
  | none => (mapGet r.commits h).map (fun cs => cs.when)

/-! ## Specification vocabulary -/

/-- Every read succeeds: each parent id of an object of the store is the hash of an object of
the store. -/
def Closed (git : List Commit) : Prop :=
  ∀ c ∈ git, ∀ p ∈ c.ParentHashes, CommitObject git p ≠ none

/-- The state `r'` extends the state `r`: same store and mode, every cached node is still
cached with the same id and timestamp, and the Change of a node cached in `r` is untouched. -/
def Ext (r r' : Repository) : Prop :=
  r'.git = r.git ∧ r'.typeDT = r.typeDT ∧
  (∀ h cs, mapGet r.commits h = some cs →
    ∃ cs', mapGet r'.commits h = some cs' ∧ cs'.id = cs.id ∧ cs'.when = cs.when) ∧
  (∀ h, mapGet r.commits h ≠ none → mapGet r'.changes h = mapGet r.changes h)

/-- The time `t` is one that a resolution of the cached commit `p` hands back: its own
timestamp, or the corrected time of its Change. -/
def Returned (r : Repository) (p : plumbing.Hash) (t : Int) : Prop :=
  ∃ pcs, mapGet r.commits p = some pcs ∧
    (pcs.when = t ∨ ∃ pch, mapGet r.changes p = some pch ∧ pch.new = t)

/-- What holds of a Change stored under `h`. -/
def ChangeOK (r : Repository) (h : plumbing.Hash) (ch : changeStruct) : Prop :=
  ch.id = h ∧ ch.when < ch.new ∧
  ∃ cs c, mapGet r.commits h = some cs ∧ CommitObject r.git h = some c ∧ ch.when = cs.when ∧
    ((ch.new = epoch + 1 ∧ ch.from_ = zeroHash ∧ ch.when < epoch) ∨
     (ch.from_ ∈ c.ParentHashes ∧ epoch < ch.new - 1 ∧ ch.when < ch.new - 1 ∧
      Returned r ch.from_ (ch.new - 1)))

/-- The invariant of the reachable states. -/
structure Inv (r : Repository) : Prop where
  node : ∀ h cs, mapGet r.commits h = some cs →
    cs.id = h ∧ ∃ c, CommitObject r.git h = some c ∧ cs.when = r.commitWhen c
  change : ∀ h ch, mapGet r.changes h = some ch → ChangeOK r h ch
  keys : ∀ h, mapGet r.commits h = none → mapGet r.changes h = none
  changeOnce : ∀ h, mapCount r.changes h ≤ 1
  nodeOnce : ∀ h, mapCount r.commits h ≤ 1

/-- Every cached commit outside `P` (the commits still being resolved) that has no Change is
not older than the own timestamp of any of its parents, all of which are cached. -/
def Settled (r : Repository) (P : plumbing.Hash → Prop) : Prop :=
  ∀ h cs c, mapGet r.commits h = some cs → ¬ P h → mapGet r.changes h = none →
    CommitObject r.git h = some c →
    ∀ p ∈ c.ParentHashes, ∃ pcs, mapGet r.commits p = some pcs ∧ pcs.when ≤ cs.when

/-- The contract of one call `addCommit(child, c)` from state `r` to state `r'`. -/
def AddPost (r : Repository) (c : Commit) (r' : Repository) (ret : Ret) : Prop :=
  Ext r r' ∧ mapGet r'.commits c.Hash ≠ none ∧
  (Inv r → Inv r' ∧ (ret.err = false → Returned r' c.Hash ret.dt) ∧
    (Closed r.git → ret.err = false ∧ ∀ P, Settled r P → Settled r' P))

/-- The state in which the loop over the parents ends. -/
def LoopOut.repo : LoopOut → Repository
  | .done r _ _ => r
  | .abort r => r

/-- The contract of the loop over the parent ids `ps`. -/
def LoopPost (ps : List plumbing.Hash) (r : Repository) (nDT : Int) (nId : plumbing.Hash)
    (out : LoopOut) : Prop :=
  Ext r out.repo ∧
  (Inv r → Inv out.repo ∧
    (∀ r' nDT' nId', out = .done r' nDT' nId' →
      ((nDT' = nDT ∧ nId' = nId) ∨ (nId' ∈ ps ∧ nDT < nDT' ∧ Returned r' nId' nDT'))) ∧
    (Closed r.git → (∀ p ∈ ps, CommitObject r.git p ≠ none) →
      ∃ r' nDT' nId', out = .done r' nDT' nId' ∧ nDT ≤ nDT' ∧
        (∀ p ∈ ps, ∃ pcs, mapGet r'.commits p = some pcs ∧ pcs.when ≤ nDT') ∧
        ∀ P, Settled r P → Settled r' P))

/-- The number of hashes of the object store that are not in the cache yet: the measure that
bounds the depth of the recursion. -/
def uncached (r : Repository) : Nat :=
  ((r.git.map (fun c => c.Hash)).toFinset.filter (fun h => mapGet r.commits h = none)).card

/-! ## Vocabulary of the claims -/

/-- The results that the resolutions of the parents hand back to the loop, in the order of
`ParentHashes`, each with the id of its parent. The list ends at the first parent that cannot
be read. -/
def parentReturns
    (recur : Repository → Option plumbing.Hash → Commit → Option (Repository × Ret))
    (currentCommit : plumbing.Hash) :
    List plumbing.Hash → Repository → List (plumbing.Hash × Ret)
  | [], _ => []
  | parentid :: rest, r =>
    match CommitObject r.git parentid with
    | none => []
    | some parentGitObject =>
      match recur r (some currentCommit) parentGitObject with
      | none => []
      | some (r1, ret) => (parentid, ret) :: parentReturns recur currentCommit rest r1

/-- The state in which `addCommit(child, c)` enters the loop over the parents of a commit that
is not cached yet: the node is created and the caller is registered as its child. -/
def enterCommit (r : Repository) (child : Option plumbing.Hash) (currentGitObject : Commit) :
    Repository :=
  (r.createCommitStruct currentGitObject).1.addChild
    (r.createCommitStruct currentGitObject).2.id child

/-- The results of the parents' resolutions in the call `addCommit(child, c)` on a commit that
is not cached yet. -/
def parentResolutions : Nat → Repository → Option plumbing.Hash → Commit →
    List (plumbing.Hash × Ret)
  | 0, _, _, _ => []
  | fuel + 1, r, child, currentGitObject =>
    parentReturns (addCommit fuel) currentGitObject.Hash currentGitObject.ParentHashes
      (enterCommit r child currentGitObject)

/-- The timestamps of the resolutions that returned no error. -/
def okTimes (tr : List (plumbing.Hash × Ret)) : List Int :=
  (tr.filter (fun e => !e.2.err)).map (fun e => e.2.dt)

/-- The commit `a` is an ancestor of the commit `h` in the object store. -/
inductive Ancestor (git : List Commit) : plumbing.Hash → plumbing.Hash → Prop where
  | parent {h p : plumbing.Hash} {c : Commit} :
      CommitObject git h = some c → p ∈ c.ParentHashes → Ancestor git p h
  | step {a p h : plumbing.Hash} : Ancestor git a p → Ancestor git p h → Ancestor git a h

/-- The empty state in which `OpenRepository` starts the traversal. -/
def emptyRepository (store : List Commit) (typedt : TypeDateTime) : Repository :=
  { git := store, commits := [], changes := [], typeDT := typedt }

/-- The chain A (hash 1, time 100), B (hash 2, time 50, parent A), C (hash 3, time 90,
parent B). -/
def chainABC : List Commit :=
  [⟨1, 100, 100, []⟩, ⟨2, 50, 50, [1]⟩, ⟨3, 90, 90, [2]⟩]

/-- The chain A (hash 1, time 100), B (hash 2, time 50, parent A), C (hash 3, time 40,
parent B). -/
def chainABC40 : List Commit :=
  [⟨1, 100, 100, []⟩, ⟨2, 50, 50, [1]⟩, ⟨3, 40, 40, [2]⟩]

/-- The chain A (hash 1, time 100), B (hash 2, time 50, parent A). -/
def chainAB : List Commit :=
  [⟨1, 100, 100, []⟩, ⟨2, 50, 50, [1]⟩]

/-- A single root commit (hash 1) dated five seconds before the epoch. -/
def oldRoot : List Commit :=
  [⟨1, -5, -5, []⟩]

/-- A root commit (hash 4) dated three seconds before the epoch. -/
def oldRoot4 : List Commit :=
  [⟨4, -3, -3, []⟩]

/-- A merge M (hash 3, five seconds before the epoch) of P1 (hash 1) and P2 (hash 2), both
dated at the epoch itself. -/
def epochMerge : List Commit :=
  [⟨1, 0, 0, []⟩, ⟨2, 0, 0, []⟩, ⟨3, -5, -5, [1, 2]⟩]

/-- The merge M (hash 3, time 10) of P1 (hash 1) and P2 (hash 2), both of time 300. -/
def mergeM : List Commit :=
  [⟨1, 300, 300, []⟩, ⟨2, 300, 300, []⟩, ⟨3, 10, 10, [1, 2]⟩]

/-- A commit (hash 3, time 10) with the parents 7, which is not in the store, and 2, of
time 50. -/
def brokenParent : List Commit :=
  [⟨2, 50, 50, []⟩, ⟨3, 10, 10, [7, 2]⟩]

/-- A commit (hash 2, time 100) whose parent (hash 1) has time 50. -/
def orderedPair : List Commit :=
  [⟨1, 50, 50, []⟩, ⟨2, 100, 100, [1]⟩]

/-- The state after `addCommit(nil, B)` on the chain A (100), B (50) from the empty cache. -/
def chainABResolved : Repository where
  git := chainAB
  commits := [(1, ⟨1, 100, [2], []⟩), (2, ⟨2, 50, [], []⟩)]
  changes := [(2, ⟨2, 50, 101, 1⟩)]
  typeDT := TypeDTAuthor

/-- The state after `addCommit(nil, M)` on the merge M (10) of P1 (300) and P2 (300) from the
empty cache. -/
def mergeMResolved : Repository where
  git := mergeM
  commits := [(2, ⟨2, 300, [3], []⟩), (1, ⟨1, 300, [3], []⟩), (3, ⟨3, 10, [], []⟩)]
  changes := [(3, ⟨3, 10, 301, 1⟩)]
  typeDT := TypeDTAuthor

/-- The state after `addCommit(nil, c)` on the commit c (hash 2, time 100) with the parent of
time 50, from the empty cache. -/
def orderedPairResolved : Repository where
  git := orderedPair
  commits := [(1, ⟨1, 50, [2], []⟩), (2, ⟨2, 100, [], []⟩)]
  changes := []
  typeDT := TypeDTAuthor

/-! ## The command line and the reports -/

/-- The function `unicode.ToLower` of the Go library, on the runes whose lower case is an ASCII
letter: the ASCII capitals, U+0130 (capital I with dot above, lower case `i`) and U+212A
(Kelvin sign, lower case `k`). Every other rune is left as it is: Go maps it to itself or to
another rune outside ASCII, so the comparison of a lower-cased string with one of the ASCII
words of `main.go` comes out as in Go. -/
def unicode.ToLower (c : Char) : Char :=
  if c = Char.ofNat 304 then 'i'
  else if c = Char.ofNat 8490 then 'k'
  else c.toLower

/-- The function `strings.ToLower`: every rune is mapped by `unicode.ToLower`. -/
def strings.ToLower (s : String) : String :=
  ⟨s.data.map unicode.ToLower⟩

/-- The function `getOutputType` of `main.go`; `none` is `os.Exit(1)`. -/
def getOutputType (outtype : String) : Option TypeOutput :=
  let outtype := strings.ToLower outtype
  if outtype = "short" then some TypeOutShort
  else if outtype = "long" then some TypeOutLong
  else if outtype = "errors" then some TypeOutErrors
  else none

/-- The function `getDTType` of `main.go`; `none` is `os.Exit(1)`. -/
def getDTType (dttype : String) : Option TypeDateTime :=
  let dttype := strings.ToLower dttype
  if dttype = "author" then some TypeDTAuthor
  else if dttype = "committer" then some TypeDTCommitter
  else none

/-- One line of the short report: commit id, original time, changed time. -/
structure ShortLine where
  commit : plumbing.Hash
  original : Int
  changed : Int
  deriving DecidableEq

/-- The text `modifiedDT` of the long report: the corrected time of the causing parent with
the commit that changed it, or the own time of the causing parent. -/
inductive ModifiedDT where
  | changedBy (new : Int) (source : plumbing.Hash)
  | own (dt : Int)
  deriving DecidableEq

/-- One block of the long report, without the names and addresses of author and committer,
which the model of `object.Commit` does not carry. -/
structure LongEntry where
  commit : plumbing.Hash
  original : Int
  changed : Int
  parent : plumbing.Hash
  current : ModifiedDT
  deriving DecidableEq

/-- The method `printOutputShort`: one line for every entry of `r.changes`. The history holds
one pair for every key, and its order stands for the unspecified order of the Go range. -/
def Repository.printOutputShort (r : Repository) : List ShortLine :=
  r.changes.map (fun e => { commit := e.1, original := e.2.when, changed := e.2.new })

/-- The body of the loop of `printOutputLong` for one Change; `none` is the run-time panic of
a read through a nil `*object.Commit` (the errors of both `CommitObject` calls are dropped). -/
def Repository.longEntry (r : Repository) (change : changeStruct) : Option LongEntry :=
  let commitGitObj := CommitObject r.git change.id
  let commitGitFrom := CommitObject r.git change.from_
  let modifiedDT : Option ModifiedDT :=
    match mapGet r.changes change.from_ with
    | some changeFrom => some (.changedBy changeFrom.new changeFrom.from_)
    | none =>
      match commitGitFrom with
      | none => none
      | some parentObj =>
        some (.own (if TypeDTAuthor = r.typeDT then parentObj.AuthorWhen
          else parentObj.CommitterWhen))
  match modifiedDT, commitGitObj, commitGitFrom with
  | some dt, some obj, some parentObj =>
    some { commit := obj.Hash, original := change.when, changed := change.new,
           parent := parentObj.Hash, current := dt }
  | _, _, _ => none

/-- The method `printOutputLong`: the blocks of all entries of `r.changes`, or a panic. -/
def Repository.printOutputLong (r : Repository) : Option (List LongEntry) :=
  (r.changes.map (fun e => r.longEntry e.2)).allSome

/-- What `PrintOutput` prints. -/
inductive Report where
  | short (lines : List ShortLine)
  | long (entries : List LongEntry)
  deriving DecidableEq

/-- How a call of `PrintOutput` ends: it returns nil after the report, it returns the error
for an unknown output type, or it panics. -/
inductive PrintResult where
  | printed (report : Report)
  | unknownType
  | panic
  deriving DecidableEq

/-- The method `PrintOutput`. -/
def Repository.PrintOutput (r : Repository) (typeout : TypeOutput) : PrintResult :=
  if typeout = TypeOutShort then .printed (.short r.printOutputShort)
  else if typeout = TypeOutLong then
    match r.printOutputLong with
    | some entries => .printed (.long entries)
    | none => .panic
  else .unknownType

/-- How a run of `main` ends: the exit code, the state that `OpenRepository` returned when the
traversal has run, and what `PrintOutput` did when it was called. -/
structure Exit where
  code : Nat
  traversal : Option Repository
  output : Option PrintResult
  deriving DecidableEq

/-- The function `main`, on the values of the flags `--repo`, `--type` and `--output` after
`flag.Parse`. The outer `Option` is the fuel of the traversal. -/
def main (fuel : Nat) (git : Option (List Commit)) (it : List Commit)
    (pathRepository dttype outtype : String) : Option Exit :=
  if pathRepository = "" then some { code := 1, traversal := none, output := none }
  else
    match getDTType dttype with
    | none => some { code := 1, traversal := none, output := none }
    | some typedt =>
      match OpenRepository fuel git it typedt with
      | none => none
      | some none => some { code := 2, traversal := none, output := none }
      | some (some r) =>
        match getOutputType outtype with
        | none => some { code := 1, traversal := some r, output := none }
        | some typeout =>
          match r.PrintOutput typeout with
          | .panic => some { code := 2, traversal := some r, output := some .panic }
          | res => some { code := 0, traversal := some r, output := some res }

/-- A sequence of calls of `addCommit`, each with its `child` argument and its commit. -/
def addCommits (fuel : Nat) :
    List (Option plumbing.Hash × Commit) → Repository → Option Repository
  | [], r => some r
  | call :: rest, r =>
    match addCommit fuel r call.1 call.2 with
    | none => none
    | some (r1, _) => addCommits fuel rest r1

/-- What a call does to the number of nodes: it never shrinks, and together with the number
of uncached hashes of the store it never grows. -/
def NodesBound (r r' : Repository) : Prop :=
  r.commits.length ≤ r'.commits.length ∧
  r'.commits.length + uncached r' ≤ r.commits.length + uncached r

/-- A corrupt store whose parent links form a cycle: the commit 1 has the parent 2 and the
commit 2 has the parent 1. -/
def cyclicPair : List Commit :=
  [⟨1, 100, 100, [2]⟩, ⟨2, 50, 50, [1]⟩]

/-- The state after the traversal of the chain A (100), B (50), C (90) enumerated as
C, B, A. -/
def chainABCTraversed : Repository where
  git := chainABC
  commits := [(1, ⟨1, 100, [2], []⟩), (2, ⟨2, 50, [3], []⟩), (3, ⟨3, 90, [], []⟩)]
  changes := [(3, ⟨3, 90, 102, 2⟩), (2, ⟨2, 50, 101, 1⟩)]
  typeDT := TypeDTAuthor

/-- A commit B (hash 2) dated five seconds before the epoch whose parent A (hash 1) has the
time 100. -/
def oldChild : List Commit :=
  [⟨1, 100, 100, []⟩, ⟨2, -5, -5, [1]⟩]

/-! ## The maps -/

theorem mapGet_mapSet {α : Type} (m : List (plumbing.Hash × α)) (k k' : plumbing.Hash) (v : α) :
    mapGet (mapSet m k v) k' = if k' = k then some v else mapGet m k' := by
  simp [mapSet, mapGet]

theorem mapGet_mapModify {α : Type} (m : List (plumbing.Hash × α)) (k k' : plumbing.Hash)
    (f : α → α) :
    mapGet (mapModify k f m) k' = if k' = k then (mapGet m k').map f else mapGet m k' := by
  induction m with
  | nil => simp [mapModify, mapGet]
  | cons e rest ih =>
    obtain ⟨ke, ve⟩ := e
    by_cases h1 : ke = k
    · subst h1
      by_cases h2 : k' = ke
      · subst h2; simp [mapGet, mapModify]
      · simp only [mapModify, if_true, mapGet, if_neg h2]
        simpa [h2] using ih
    · by_cases h2 : k' = k
      · subst h2
        have h3 : ¬ k' = ke := fun h => h1 h.symm
        simp only [mapModify, if_neg h1, mapGet, if_neg h3]
        simpa using ih
      · simp only [mapModify, if_neg h1, mapGet, if_neg h2]
        split
        · rfl
        · simpa [h2] using ih

theorem mapCount_mapSet {α : Type} (m : List (plumbing.Hash × α)) (k k' : plumbing.Hash) (v : α) :
    mapCount (mapSet m k v) k' = (if k' = k then 1 else 0) + mapCount m k' := by
  by_cases h : k' = k
  · simp [mapSet, mapCount, h]; omega
  · simp [mapSet, mapCount, h]

theorem mapCount_mapModify {α : Type} (m : List (plumbing.Hash × α)) (k k' : plumbing.Hash)
    (f : α → α) : mapCount (mapModify k f m) k' = mapCount m k' := by
  induction m with
  | nil => simp [mapModify, mapCount]
  | cons e rest ih =>
    obtain ⟨ke, ve⟩ := e
    by_cases h1 : ke = k <;> by_cases h2 : k' = ke
    · subst h1; subst h2; simp [mapModify, mapCount, ih]
    · simp [mapModify, mapCount, h1, h2, ih]
    · subst h2; simp [mapModify, mapCount, h1, ih]
    · simp [mapModify, mapCount, h1, h2, ih]

theorem mapGet_eq_none_iff {α : Type} (m : List (plumbing.Hash × α)) (k : plumbing.Hash) :
    mapGet m k = none ↔ mapCount m k = 0 := by
  induction m with
  | nil => simp [mapGet, mapCount]
  | cons e rest ih =>
    obtain ⟨ke, ve⟩ := e
    by_cases h : k = ke
    · simp [mapGet, mapCount, h]
    · simp [mapGet, mapCount, h, ih]

theorem CommitObject_hash {git : List Commit} {h : plumbing.Hash} {c : Commit}
    (hc : CommitObject git h = some c) : c.Hash = h := by
  have := List.find?_some hc
  simpa using this

theorem CommitObject_mem {git : List Commit} {h : plumbing.Hash} {c : Commit}
    (hc : CommitObject git h = some c) : c ∈ git :=
  List.mem_of_find?_eq_some hc

/-! ## Extension of states and the invariant -/

theorem Ext.refl (r : Repository) : Ext r r :=
  ⟨rfl, rfl, fun _ cs h => ⟨cs, h, rfl, rfl⟩, fun _ _ => rfl⟩

theorem Ext.trans {r1 r2 r3 : Repository} (h12 : Ext r1 r2) (h23 : Ext r2 r3) : Ext r1 r3 := by
  obtain ⟨g1, t1, c1, x1⟩ := h12
  obtain ⟨g2, t2, c2, x2⟩ := h23
  refine ⟨g2.trans g1, t2.trans t1, ?_, ?_⟩
  · intro h cs hcs
    obtain ⟨cs', h', i', w'⟩ := c1 h cs hcs
    obtain ⟨cs'', h'', i'', w''⟩ := c2 h cs' h'
    exact ⟨cs'', h'', i''.trans i', w''.trans w'⟩
  · intro h hne
    have hne2 : mapGet r2.commits h ≠ none := by
      cases hm : mapGet r1.commits h with
      | none => exact absurd hm hne
      | some cs =>
        obtain ⟨cs', h', _⟩ := c1 h cs hm
        simp [h']
    rw [x2 h hne2, x1 h hne]

theorem Ext.cached {r r' : Repository} (h : Ext r r') {k : plumbing.Hash}
    (hk : mapGet r.commits k ≠ none) : mapGet r'.commits k ≠ none := by
  cases hm : mapGet r.commits k with
  | none => exact absurd hm hk
  | some cs =>
    obtain ⟨cs', h', _⟩ := h.2.2.1 k cs hm
    simp [h']

theorem commitStruct.addChild_id (c : commitStruct) (cs : Option plumbing.Hash) :
    (c.addChild cs).id = c.id := by
  unfold commitStruct.addChild
  split
  · rfl
  · split <;> rfl

theorem commitStruct.addChild_when (c : commitStruct) (cs : Option plumbing.Hash) :
    (c.addChild cs).when = c.when := by
  unfold commitStruct.addChild
  split
  · rfl
  · split <;> rfl

theorem mapGet_addChild (r : Repository) (p : plumbing.Hash) (child : Option plumbing.Hash)
    (h : plumbing.Hash) (cs : commitStruct) (hcs : mapGet r.commits h = some cs) :
    ∃ cs', mapGet (r.addChild p child).commits h = some cs' ∧ cs'.id = cs.id ∧
      cs'.when = cs.when := by
  simp only [Repository.addChild, mapGet_mapModify]
  by_cases hp : h = p
  · simp only [if_pos hp, hcs, Option.map_some']
    exact ⟨_, rfl, commitStruct.addChild_id _ _, commitStruct.addChild_when _ _⟩
  · simp only [if_neg hp, hcs]
    exact ⟨_, rfl, rfl, rfl⟩

theorem mapGet_addChild_inv (r : Repository) (p : plumbing.Hash) (child : Option plumbing.Hash)
    (h : plumbing.Hash) (cs' : commitStruct)
    (hcs : mapGet (r.addChild p child).commits h = some cs') :
    ∃ cs, mapGet r.commits h = some cs ∧ cs'.id = cs.id ∧ cs'.when = cs.when := by
  cases hm : mapGet r.commits h with
  | none =>
    simp [Repository.addChild, mapGet_mapModify, hm] at hcs
  | some cs =>
    obtain ⟨cs2, h2, i2, w2⟩ := mapGet_addChild r p child h cs hm
    rw [h2] at hcs
    cases hcs
    exact ⟨cs, rfl, i2, w2⟩

theorem Ext_addChild (r : Repository) (p : plumbing.Hash) (child : Option plumbing.Hash) :
    Ext r (r.addChild p child) :=
  ⟨rfl, rfl, fun h cs hcs => mapGet_addChild r p child h cs hcs, fun _ _ => rfl⟩

theorem Ext_createCommitStruct (r : Repository) (c : Commit)
    (hc : mapGet r.commits c.Hash = none) : Ext r (r.createCommitStruct c).1 := by
  refine ⟨rfl, rfl, ?_, fun _ _ => rfl⟩
  intro h cs hcs
  have hne : h ≠ c.Hash := by
    intro e; rw [e, hc] at hcs; cases hcs
  refine ⟨cs, ?_, rfl, rfl⟩
  simp [Repository.createCommitStruct, mapGet_mapSet, hne, hcs]

theorem Returned.ext {r r' : Repository} (h : Ext r r') {p : plumbing.Hash} {t : Int}
    (hr : Returned r p t) : Returned r' p t := by
  obtain ⟨pcs, hp, hor⟩ := hr
  obtain ⟨pcs', hp', _, w'⟩ := h.2.2.1 p pcs hp
  refine ⟨pcs', hp', ?_⟩
  rcases hor with e | ⟨pch, hch, e⟩
  · exact Or.inl (w'.trans e)
  · refine Or.inr ⟨pch, ?_, e⟩
    rw [h.2.2.2 p (by simp [hp]), hch]

theorem ChangeOK.extends {r r' : Repository} (h : Ext r r') {k : plumbing.Hash} {ch : changeStruct}
    (hc : ChangeOK r k ch) : ChangeOK r' k ch := by
  obtain ⟨hid, hlt, cs, c, hcs, hobj, hw, hor⟩ := hc
  obtain ⟨cs', hcs', _, w'⟩ := h.2.2.1 k cs hcs
  refine ⟨hid, hlt, cs', c, hcs', by rw [h.1]; exact hobj, hw.trans w'.symm, ?_⟩
  rcases hor with h1 | ⟨h1, h2, h3, h4⟩
  · exact Or.inl h1
  · exact Or.inr ⟨h1, h2, h3, h4.ext h⟩

theorem Inv_addChild {r : Repository} (hi : Inv r) (p : plumbing.Hash)
    (child : Option plumbing.Hash) : Inv (r.addChild p child) := by
  refine ⟨?_, ?_, ?_, ?_, ?_⟩
  · intro h cs' hcs'
    obtain ⟨cs, hcs, i, w⟩ := mapGet_addChild_inv r p child h cs' hcs'
    obtain ⟨hid, c, hc, hw⟩ := hi.node h cs hcs
    exact ⟨i.trans hid, c, hc, w.trans hw⟩
  · intro h ch hch
    exact (hi.change h ch hch).extends (Ext_addChild r p child)
  · intro h hn
    apply hi.keys
    cases hm : mapGet r.commits h with
    | none => rfl
    | some cs =>
      obtain ⟨cs', h', _⟩ := mapGet_addChild r p child h cs hm
      rw [h'] at hn; cases hn
  · exact hi.changeOnce
  · intro h
    simp only [Repository.addChild, mapCount_mapModify]
    exact hi.nodeOnce h

theorem Inv_createCommitStruct {r : Repository} (hi : Inv r) (c : Commit)
    (hobj : CommitObject r.git c.Hash = some c) (hc : mapGet r.commits c.Hash = none) :
    Inv (r.createCommitStruct c).1 := by
  refine ⟨?_, ?_, ?_, ?_, ?_⟩
  · intro h cs hcs
    simp only [Repository.createCommitStruct, mapGet_mapSet] at hcs
    by_cases hh : h = c.Hash
    · simp only [if_pos hh] at hcs
      cases hcs
      exact ⟨hh.symm, c, by rw [hh]; exact hobj, rfl⟩
    · simp only [if_neg hh] at hcs
      exact hi.node h cs hcs
  · intro h ch hch
    exact (hi.change h ch hch).extends (Ext_createCommitStruct r c hc)
  · intro h hn
    apply hi.keys
    simp only [Repository.createCommitStruct, mapGet_mapSet] at hn
    by_cases hh : h = c.Hash
    · simp [hh] at hn
    · simpa [hh] using hn
  · exact hi.changeOnce
  · intro h
    simp only [Repository.createCommitStruct, mapCount_mapSet]
    by_cases hh : h = c.Hash
    · have := (mapGet_eq_none_iff r.commits c.Hash).1 hc
      simp [hh, this]
    · simpa [hh] using hi.nodeOnce h

theorem Returned_createChange {r : Repository} {p : plumbing.Hash} {t : Int}
    (hr : Returned r p t) (cs : commitStruct) (nDT : Int) (nId : plumbing.Hash)
    (hn : mapGet r.changes cs.id = none) : Returned (r.createChange cs nDT nId).1 p t := by
  obtain ⟨pcs, hp, hor⟩ := hr
  refine ⟨pcs, hp, ?_⟩
  rcases hor with e | ⟨pch, hch, e⟩
  · exact Or.inl e
  · refine Or.inr ⟨pch, ?_, e⟩
    have hne : p ≠ cs.id := by
      intro e'; rw [e', hn] at hch; cases hch
    simp [Repository.createChange, mapGet_mapSet, hne, hch]

theorem Inv_createChange {r : Repository} (hi : Inv r) (cs cs0 : commitStruct) (c : Commit)
    (nDT : Int) (nId : plumbing.Hash)
    (hcs : mapGet r.commits cs.id = some cs0) (hw : cs0.when = cs.when)
    (hobj : CommitObject r.git cs.id = some c)
    (hn : mapGet r.changes cs.id = none) (hlt : cs.when < nDT)
    (hsrc : (nDT = epoch ∧ nId = zeroHash) ∨
      (nId ∈ c.ParentHashes ∧ epoch < nDT ∧ Returned r nId nDT)) :
    Inv (r.createChange cs nDT nId).1 := by
  refine ⟨hi.node, ?_, ?_, ?_, hi.nodeOnce⟩
  · intro h ch hch
    simp only [Repository.createChange, mapGet_mapSet] at hch
    by_cases hh : h = cs.id
    · simp only [if_pos hh] at hch
      cases hch
      refine ⟨hh.symm, ?_, cs0, c, by rw [hh]; exact hcs, by rw [hh]; exact hobj, hw.symm, ?_⟩
      · show cs.when < nDT + 1
        omega
      · rcases hsrc with ⟨e1, e2⟩ | ⟨m, e1, e2⟩
        · left
          refine ⟨?_, e2, ?_⟩
          · show nDT + 1 = epoch + 1
            rw [e1]
          · show cs.when < epoch
            rw [← e1]; exact hlt
        · right
          refine ⟨m, ?_, ?_, ?_⟩
          · show epoch < nDT + 1 - 1
            omega
          · show cs.when < nDT + 1 - 1
            omega
          · have : nDT + 1 - 1 = nDT := by omega
            show Returned _ nId (nDT + 1 - 1)
            rw [this]
            exact Returned_createChange e2 cs nDT nId hn
    · simp only [if_neg hh] at hch
      obtain ⟨hid, hl, cs1, c1, hcs1, hobj1, hw1, hor⟩ := hi.change h ch hch
      refine ⟨hid, hl, cs1, c1, hcs1, hobj1, hw1, ?_⟩
      rcases hor with h1 | ⟨h1, h2, h3, h4⟩
      · exact Or.inl h1
      · exact Or.inr ⟨h1, h2, h3, Returned_createChange h4 cs nDT nId hn⟩
  · intro h hnone
    simp only [Repository.createChange, mapGet_mapSet]
    have hh : h ≠ cs.id := by
      intro e
      have : mapGet r.commits h = some cs0 := by rw [e]; exact hcs
      have hnone' : mapGet r.commits h = none := hnone
      rw [hnone'] at this; cases this
    simp only [if_neg hh]
    exact hi.keys h hnone
  · intro h
    simp only [Repository.createChange, mapCount_mapSet]
    by_cases hh : h = cs.id
    · have := (mapGet_eq_none_iff r.changes cs.id).1 hn
      simp [hh, this]
    · simpa [hh] using hi.changeOnce h

/-! ## The contract of the loop and of `addCommit` -/

theorem Returned.when_le {r : Repository} (hi : Inv r) {p : plumbing.Hash} {t : Int}
    (hr : Returned r p t) : ∃ pcs, mapGet r.commits p = some pcs ∧ pcs.when ≤ t := by
  obtain ⟨pcs, hp, hor⟩ := hr
  refine ⟨pcs, hp, ?_⟩
  rcases hor with e | ⟨pch, hch, e⟩
  · omega
  · obtain ⟨_, hlt, cs, _, hcs, _, hw, _⟩ := hi.change p pch hch
    rw [hp] at hcs
    cases hcs
    omega

theorem Settled.pending {r r' : Repository} {P P' : plumbing.Hash → Prop} (hf : Settled r P)
    (he : Ext r r')
    (hnew : ∀ h, mapGet r.commits h = none → mapGet r'.commits h ≠ none → P' h)
    (hP : ∀ h, P h → P' h) : Settled r' P' := by
  intro h cs' c hcs' hnp hnc hobj p hp
  cases hm : mapGet r.commits h with
  | none => exact absurd (hnew h hm (by simp [hcs'])) hnp
  | some cs =>
    obtain ⟨cs2, hcs2, _, w2⟩ := he.2.2.1 h cs hm
    rw [hcs'] at hcs2
    cases hcs2
    have hnc0 : mapGet r.changes h = none := by
      rw [← he.2.2.2 h (by simp [hm])]; exact hnc
    have hobj0 : CommitObject r.git h = some c := by rw [← he.1]; exact hobj
    obtain ⟨pcs, hpcs, hle⟩ := hf h cs c hm (fun x => hnp (hP h x)) hnc0 hobj0 p hp
    obtain ⟨pcs', hpcs', _, w'⟩ := he.2.2.1 p pcs hpcs
    exact ⟨pcs', hpcs', by omega⟩

theorem parentsLoop_post
    (recur : Repository → Option plumbing.Hash → Commit → Option (Repository × Ret))
    (cur : plumbing.Hash)
    (HR : ∀ r child c r' ret, CommitObject r.git c.Hash = some c →
      recur r child c = some (r', ret) → AddPost r c r' ret) :
    ∀ ps r nDT nId out, parentsLoop recur cur ps r nDT nId = some out →
      LoopPost ps r nDT nId out := by
  intro ps
  induction ps with
  | nil =>
    intro r nDT nId out h
    simp only [parentsLoop, Option.some.injEq] at h
    subst h
    refine ⟨Ext.refl r, fun hi => ⟨hi, ?_, ?_⟩⟩
    · intro r' nDT' nId' e
      cases e
      exact Or.inl ⟨rfl, rfl⟩
    · intro _ _
      exact ⟨r, nDT, nId, rfl, le_refl _, fun p hp => absurd hp (List.not_mem_nil p),
        fun P hf => hf⟩
  | cons pid rest ih =>
    intro r nDT nId out h
    simp only [parentsLoop] at h
    cases hobj : CommitObject r.git pid with
    | none =>
      simp only [hobj, Option.some.injEq] at h
      subst h
      refine ⟨Ext.refl r, fun hi => ⟨hi, ?_, ?_⟩⟩
      · intro r' nDT' nId' e
        cases e
      · intro _ hall
        exact absurd hobj (hall pid (List.mem_cons_self pid rest))
    | some pobj =>
      simp only [hobj] at h
      have hhash : pobj.Hash = pid := CommitObject_hash hobj
      cases hrec : recur r (some cur) pobj with
      | none => simp [hrec] at h
      | some res =>
        obtain ⟨r1, ret⟩ := res
        simp only [hrec] at h
        have hobj' : CommitObject r.git pobj.Hash = some pobj := by rw [hhash]; exact hobj
        obtain ⟨hE1, hC1, hI1⟩ := HR r (some cur) pobj r1 ret hobj' hrec
        -- the three ways of going on share the same argument
        have key : ∀ n i, parentsLoop recur cur rest r1 n i = some out →
            (nDT ≤ n) → ((n = nDT ∧ i = nId) ∨ (i = pid ∧ nDT < n ∧ n = ret.dt ∧ ret.err = false)) →
            (ret.err = false → ret.dt ≤ n) →
            LoopPost (pid :: rest) r nDT nId out := by
          intro n i hloop hle hni hret
          obtain ⟨hE2, hI2⟩ := ih r1 n i out hloop
          refine ⟨hE1.trans hE2, fun hi => ?_⟩
          obtain ⟨hi1, hR1, hCl1⟩ := hI1 hi
          obtain ⟨hi2, hT2, hCl2⟩ := hI2 hi1
          refine ⟨hi2, ?_, ?_⟩
          · intro r' nDT' nId' e
            rcases hT2 r' nDT' nId' e with ⟨e1, e2⟩ | ⟨m, hlt, hr⟩
            · rcases hni with ⟨e3, e4⟩ | ⟨e3, e4, e5, e6⟩
              · exact Or.inl ⟨e1.trans e3, e2.trans e4⟩
              · right
                refine ⟨by rw [e2, e3]; exact List.mem_cons_self _ _, by omega, ?_⟩
                have hr1 : Returned r1 pid ret.dt := by rw [← hhash]; exact hR1 e6
                have hE2' : Ext r1 r' := by rw [e] at hE2; exact hE2
                rw [e2, e3, e1, e5]
                exact hr1.ext hE2'
            · exact Or.inr ⟨List.mem_cons_of_mem _ m, by omega, hr⟩
          · intro hcl hall
            obtain ⟨herr, hF1⟩ := hCl1 hcl
            have hcl1 : Closed r1.git := by rw [hE1.1]; exact hcl
            have hall1 : ∀ p ∈ rest, CommitObject r1.git p ≠ none := by
              intro p hp; rw [hE1.1]; exact hall p (List.mem_cons_of_mem _ hp)
            obtain ⟨r', nDT', nId', e, hle', hps, hF2⟩ := hCl2 hcl1 hall1
            refine ⟨r', nDT', nId', e, by omega, ?_, fun P hf => hF2 P (hF1 P hf)⟩
            intro p hp
            rcases List.mem_cons.1 hp with e1 | hp'
            · have hr1 : Returned r1 pid ret.dt := by rw [← hhash]; exact hR1 herr
              have hE2' : Ext r1 r' := by rw [e] at hE2; exact hE2
              have hi2' : Inv r' := by rw [e] at hi2; exact hi2
              obtain ⟨pcs, hpcs, hw⟩ := (hr1.ext hE2').when_le hi2'
              have := hret herr
              exact ⟨pcs, by rw [e1]; exact hpcs, by omega⟩
            · exact hps p hp'
        by_cases herr : ret.err = true
        · simp only [herr, if_true] at h
          exact key nDT nId h (le_refl _) (Or.inl ⟨rfl, rfl⟩) (fun x => by simp [herr] at x)
        · have herr' : ret.err = false := by simpa using herr
          simp only [herr', Bool.false_eq_true, if_false] at h
          by_cases hnew : nDT < ret.dt
          · simp only [hnew, if_true] at h
            exact key ret.dt pid h (by omega) (Or.inr ⟨rfl, hnew, rfl, herr'⟩) (fun _ => le_refl _)
          · simp only [hnew, if_false] at h
            exact key nDT nId h (le_refl _) (Or.inl ⟨rfl, rfl⟩) (fun _ => by omega)

theorem Closed.parents {git : List Commit} (hcl : Closed git) {h : plumbing.Hash} {c : Commit}
    (hc : CommitObject git h = some c) : ∀ p ∈ c.ParentHashes, CommitObject git p ≠ none :=
  hcl c (CommitObject_mem hc)

theorem addCommit_post : ∀ fuel r child c r' ret, CommitObject r.git c.Hash = some c →
    addCommit fuel r child c = some (r', ret) → AddPost r c r' ret := by
  intro fuel
  induction fuel with
  | zero =>
    intro r child c r' ret _ h
    simp [addCommit] at h
  | succ fuel ih =>
    intro r child c r' ret hobj h
    simp only [addCommit] at h
    cases hm : mapGet r.commits c.Hash with
    | some current =>
      simp only [hm, Option.some.injEq, Prod.mk.injEq] at h
      obtain ⟨h1, h2⟩ := h
      subst h1
      subst h2
      obtain ⟨cs', hcs', _, w'⟩ := mapGet_addChild r c.Hash child c.Hash current hm
      refine ⟨Ext_addChild r c.Hash child, by simp [hcs'], fun hi => ⟨Inv_addChild hi _ _, ?_, ?_⟩⟩
      · intro _
        exact ⟨cs', hcs', Or.inl w'⟩
      · intro _
        refine ⟨rfl, fun P hf => hf.pending (Ext_addChild r c.Hash child) ?_ (fun _ x => x)⟩
        intro k hk hk'
        cases hm' : mapGet (r.addChild c.Hash child).commits k with
        | none => exact absurd hm' hk'
        | some x =>
          obtain ⟨y, hy, _⟩ := mapGet_addChild_inv r c.Hash child k x hm'
          rw [hk] at hy; cases hy
    | none =>
      simp only [hm] at h
      -- the state after the node has been created and the caller registered
      have hE12 : Ext r ((r.createCommitStruct c).1.addChild (r.createCommitStruct c).2.id child) :=
        (Ext_createCommitStruct r c hm).trans (Ext_addChild _ _ _)
      generalize hr2 : (r.createCommitStruct c).1.addChild (r.createCommitStruct c).2.id child
        = r2 at h hE12
      have hid : (r.createCommitStruct c).2.id = c.Hash := rfl
      have hwhen : (r.createCommitStruct c).2.when = r.commitWhen c := rfl
      have hnode2 : ∃ cs2, mapGet r2.commits c.Hash = some cs2 ∧ cs2.when = r.commitWhen c := by
        have h1 : mapGet (r.createCommitStruct c).1.commits c.Hash
            = some (r.createCommitStruct c).2 := by
          simp [Repository.createCommitStruct, mapGet_mapSet]
        obtain ⟨x, hx, _, wx⟩ := mapGet_addChild _ (r.createCommitStruct c).2.id child _ _ h1
        rw [hr2] at hx
        exact ⟨x, hx, wx⟩
      have hnew2 : ∀ k, mapGet r.commits k = none → mapGet r2.commits k ≠ none →
          k = c.Hash := by
        intro k hk hk'
        by_contra hne
        apply hk'
        rw [← hr2]
        cases hx : mapGet ((r.createCommitStruct c).1.addChild
            (r.createCommitStruct c).2.id child).commits k with
        | none => rfl
        | some x =>
          obtain ⟨y, hy, _⟩ := mapGet_addChild_inv _ _ _ k x hx
          simp [Repository.createCommitStruct, mapGet_mapSet, hne, hk] at hy
      have hch2 : r2.changes = r.changes := by rw [← hr2]; rfl
      have hI12 : Inv r → Inv r2 := by
        intro hi
        rw [← hr2]
        exact Inv_addChild (Inv_createCommitStruct hi c hobj hm) _ _
      cases hloop : parentsLoop (addCommit fuel) (r.createCommitStruct c).2.id c.ParentHashes
          r2 epoch zeroHash with
      | none => simp [hloop] at h
      | some out =>
        obtain ⟨hE23, hI23⟩ := parentsLoop_post (addCommit fuel) _ ih _ _ _ _ out hloop
        obtain ⟨cs2, hcs2, hw2⟩ := hnode2
        have hpar : Closed r.git → ∀ p ∈ c.ParentHashes, CommitObject r2.git p ≠ none := by
          intro hcl
          rw [hE12.1]
          exact hcl.parents hobj
        cases out with
        | abort r3 =>
          simp only [hloop, Option.some.injEq, Prod.mk.injEq] at h
          obtain ⟨h1, h2⟩ := h
          subst h1
          subst h2
          have hE23' : Ext r2 r3 := hE23
          refine ⟨hE12.trans hE23', hE23'.cached (by simp [hcs2]), fun hi => ?_⟩
          obtain ⟨hi3, _, hCl⟩ := hI23 (hI12 hi)
          refine ⟨hi3, fun x => by simp at x, fun hcl => ?_⟩
          obtain ⟨_, _, _, e, _⟩ := hCl (by rw [hE12.1]; exact hcl) (hpar hcl)
          cases e
        | done r3 nDT nId =>
          have hE23' : Ext r2 r3 := hE23
          obtain ⟨cs3, hcs3, _, hw3⟩ := hE23'.2.2.1 c.Hash cs2 hcs2
          have hFin2 : ∀ P, Settled r P → Settled r2 (fun k => P k ∨ k = c.Hash) := fun P hf =>
            hf.pending hE12 (fun k hk hk' => Or.inr (hnew2 k hk hk')) (fun _ x => Or.inl x)
          simp only [hloop] at h
          by_cases hlt : (r.createCommitStruct c).2.when < nDT
          · simp only [hlt, if_true, Option.some.injEq, Prod.mk.injEq] at h
            obtain ⟨h1, h2⟩ := h
            subst h1
            subst h2
            have hcom : (r3.createChange (r.createCommitStruct c).2 nDT nId).1.commits
                = r3.commits := rfl
            have hchg : ∀ k, k ≠ c.Hash →
                mapGet (r3.createChange (r.createCommitStruct c).2 nDT nId).1.changes k
                  = mapGet r3.changes k := by
              intro k hk
              simp [Repository.createChange, mapGet_mapSet, hid, hk]
            have hchgc : mapGet (r3.createChange (r.createCommitStruct c).2 nDT nId).1.changes
                c.Hash = some (r3.createChange (r.createCommitStruct c).2 nDT nId).2 := by
              simp [Repository.createChange, mapGet_mapSet, hid]
            have hE13 : Ext r r3 := hE12.trans hE23'
            refine ⟨⟨hE13.1, hE13.2.1, hE13.2.2.1, ?_⟩, by rw [hcom]; simp [hcs3],
              fun hi => ?_⟩
            · intro k hk
              have hne : k ≠ c.Hash := by
                intro e; rw [e] at hk; exact hk hm
              rw [hchg k hne]
              exact hE13.2.2.2 k hk
            · obtain ⟨hi3, hT, hCl⟩ := hI23 (hI12 hi)
              have hi3' : Inv r3 := hi3
              have hn3 : mapGet r3.changes c.Hash = none := by
                rw [hE23'.2.2.2 c.Hash (by simp [hcs2]), hch2]
                exact hi.keys c.Hash hm
              have hsrc : (nDT = epoch ∧ nId = zeroHash) ∨
                  (nId ∈ c.ParentHashes ∧ epoch < nDT ∧ Returned r3 nId nDT) :=
                hT r3 nDT nId rfl
              have hobj3 : CommitObject r3.git (r.createCommitStruct c).2.id = some c := by
                rw [hE13.1]; exact hobj
              have hi4 := Inv_createChange hi3' (r.createCommitStruct c).2 cs3 c nDT nId
                hcs3 (hw3.trans hw2) hobj3 hn3 hlt hsrc
              refine ⟨hi4, fun _ => ⟨cs3, hcs3, Or.inr ⟨_, hchgc, rfl⟩⟩, fun hcl => ⟨rfl, ?_⟩⟩
              intro P hf
              obtain ⟨r3', nDT', nId', e, _, _, hF3⟩ :=
                hCl (by rw [hE12.1]; exact hcl) (hpar hcl)
              cases e
              have hf3 := hF3 _ (hFin2 P hf)
              intro k cs' c' hk hnp hnc hobj' p hp
              have hne : k ≠ c.Hash := by
                intro e; rw [e, hchgc] at hnc; cases hnc
              rw [hchg k hne] at hnc
              exact hf3 k cs' c' hk (fun x => x.elim hnp hne) hnc hobj' p hp
          · simp only [hlt, if_false, Option.some.injEq, Prod.mk.injEq] at h
            obtain ⟨h1, h2⟩ := h
            subst h1
            subst h2
            refine ⟨hE12.trans hE23', by simp [hcs3], fun hi => ?_⟩
            obtain ⟨hi3, hT, hCl⟩ := hI23 (hI12 hi)
            refine ⟨hi3, fun _ => ⟨cs3, hcs3, Or.inl (hw3.trans hw2)⟩, fun hcl => ⟨rfl, ?_⟩⟩
            intro P hf
            obtain ⟨r3', nDT', nId', e, _, hps, hF3⟩ :=
              hCl (by rw [hE12.1]; exact hcl) (hpar hcl)
            cases e
            have hf3 := hF3 _ (hFin2 P hf)
            intro k cs' c' hk hnp hnc hobj' p hp
            by_cases hkc : k = c.Hash
            · subst hkc
              rw [hcs3] at hk
              cases hk
              have hE13 : Ext r r3 := hE12.trans hE23'
              rw [hE13.1, hobj] at hobj'
              cases hobj'
              obtain ⟨pcs, hpcs, hle⟩ := hps p hp
              refine ⟨pcs, hpcs, ?_⟩
              rw [hwhen] at hlt
              omega
            · exact hf3 k cs' c' hk (fun x => x.elim hnp hkc) hnc hobj' p hp

/-! ## Enough fuel: the traversal returns -/

theorem uncached_le_length (r : Repository) : uncached r ≤ r.git.length := by
  unfold uncached
  calc _ ≤ (r.git.map (fun c => c.Hash)).toFinset.card := Finset.card_filter_le _ _
    _ ≤ (r.git.map (fun c => c.Hash)).length := List.toFinset_card_le _
    _ = r.git.length := List.length_map _ _

theorem Ext.uncached_le {r r' : Repository} (he : Ext r r') : uncached r' ≤ uncached r := by
  unfold uncached
  rw [he.1]
  apply Finset.card_le_card
  intro h hh
  simp only [Finset.mem_filter] at hh ⊢
  refine ⟨hh.1, ?_⟩
  by_contra hne
  exact he.cached hne hh.2

theorem Ext.uncached_lt {r r' : Repository} (he : Ext r r') {k : plumbing.Hash} {c : Commit}
    (hobj : CommitObject r.git k = some c) (hk : mapGet r.commits k = none)
    (hk' : mapGet r'.commits k ≠ none) : uncached r' < uncached r := by
  unfold uncached
  rw [he.1]
  apply Finset.card_lt_card
  rw [Finset.ssubset_iff_of_subset]
  · refine ⟨k, ?_, ?_⟩
    · simp only [Finset.mem_filter, List.mem_toFinset, List.mem_map]
      exact ⟨⟨c, CommitObject_mem hobj, CommitObject_hash hobj⟩, hk⟩
    · simp only [Finset.mem_filter, not_and]
      intro _
      exact hk'
  · intro h hh
    simp only [Finset.mem_filter] at hh ⊢
    refine ⟨hh.1, ?_⟩
    by_contra hne
    exact he.cached hne hh.2

theorem parentsLoop_total
    (recur : Repository → Option plumbing.Hash → Commit → Option (Repository × Ret))
    (cur : plumbing.Hash) (N : Nat)
    (HR : ∀ r child c r' ret, CommitObject r.git c.Hash = some c →
      recur r child c = some (r', ret) → AddPost r c r' ret)
    (HT : ∀ r child c, CommitObject r.git c.Hash = some c → uncached r ≤ N →
      ∃ res, recur r child c = some res) :
    ∀ ps r nDT nId, uncached r ≤ N → ∃ out, parentsLoop recur cur ps r nDT nId = some out := by
  intro ps
  induction ps with
  | nil =>
    intro r nDT nId _
    exact ⟨_, rfl⟩
  | cons pid rest ih =>
    intro r nDT nId hN
    simp only [parentsLoop]
    cases hobj : CommitObject r.git pid with
    | none => exact ⟨_, rfl⟩
    | some pobj =>
      have hobj' : CommitObject r.git pobj.Hash = some pobj := by
        rw [CommitObject_hash hobj]; exact hobj
      obtain ⟨⟨r1, ret⟩, hrec⟩ := HT r (some cur) pobj hobj' hN
      have hE : Ext r r1 := (HR r (some cur) pobj r1 ret hobj' hrec).1
      have hN1 : uncached r1 ≤ N := le_trans hE.uncached_le hN
      simp only [hrec]
      split
      · exact ih r1 _ _ hN1
      · split
        · exact ih r1 _ _ hN1
        · exact ih r1 _ _ hN1

theorem addCommit_total : ∀ fuel r child c, CommitObject r.git c.Hash = some c →
    uncached r < fuel → ∃ res, addCommit fuel r child c = some res := by
  intro fuel
  induction fuel with
  | zero =>
    intro r child c _ h
    omega
  | succ fuel ih =>
    intro r child c hobj hlt
    simp only [addCommit]
    cases hm : mapGet r.commits c.Hash with
    | some current => exact ⟨_, rfl⟩
    | none =>
      simp only []
      have hE12 : Ext r ((r.createCommitStruct c).1.addChild (r.createCommitStruct c).2.id child) :=
        (Ext_createCommitStruct r c hm).trans (Ext_addChild _ _ _)
      have hc2 : mapGet ((r.createCommitStruct c).1.addChild
          (r.createCommitStruct c).2.id child).commits c.Hash ≠ none := by
        have h1 : mapGet (r.createCommitStruct c).1.commits c.Hash
            = some (r.createCommitStruct c).2 := by
          simp [Repository.createCommitStruct, mapGet_mapSet]
        obtain ⟨x, hx, _⟩ := mapGet_addChild _ (r.createCommitStruct c).2.id child _ _ h1
        simp [hx]
      have hlt2 := hE12.uncached_lt hobj hm hc2
      have hN2 : uncached ((r.createCommitStruct c).1.addChild
          (r.createCommitStruct c).2.id child) ≤ fuel - 1 := by omega
      obtain ⟨out, hout⟩ := parentsLoop_total (addCommit fuel) (r.createCommitStruct c).2.id
        (fuel - 1) (addCommit_post fuel)
        (fun r' child' c' ho (hu : uncached r' ≤ fuel - 1) =>
          ih r' child' c' ho (show uncached r' < fuel by omega))
        c.ParentHashes _ epoch zeroHash hN2
      rw [hout]
      cases out with
      | abort r3 => exact ⟨_, rfl⟩
      | done r3 nDT nId =>
        simp only []
        split
        · exact ⟨_, rfl⟩
        · exact ⟨_, rfl⟩

/-! ## The whole traversal -/

theorem forEachCommit_post (fuel : Nat) : ∀ it r,
    (∀ c ∈ it, CommitObject r.git c.Hash = some c) → r.git.length < fuel →
    ∃ r', forEachCommit fuel it r = some r' ∧ Ext r r' ∧
      (∀ c ∈ it, mapGet r'.commits c.Hash ≠ none) ∧
      (Inv r → Inv r' ∧ (Closed r.git → ∀ P, Settled r P → Settled r' P)) := by
  intro it
  induction it with
  | nil =>
    intro r _ _
    exact ⟨r, rfl, Ext.refl r, fun c hc => absurd hc (List.not_mem_nil c),
      fun hi => ⟨hi, fun _ _ hf => hf⟩⟩
  | cons c rest ih =>
    intro r hit hfuel
    have hobj := hit c (List.mem_cons_self c rest)
    obtain ⟨⟨r1, ret⟩, hres⟩ := addCommit_total fuel r none c hobj
      (lt_of_le_of_lt (uncached_le_length r) hfuel)
    obtain ⟨hE1, hC1, hI1⟩ := addCommit_post fuel r none c r1 ret hobj hres
    obtain ⟨r', hr', hE2, hC2, hI2⟩ := ih r1
      (fun x hx => by rw [hE1.1]; exact hit x (List.mem_cons_of_mem _ hx))
      (by rw [hE1.1]; exact hfuel)
    refine ⟨r', by simp only [forEachCommit, hres]; exact hr', hE1.trans hE2, ?_, ?_⟩
    · intro x hx
      rcases List.mem_cons.1 hx with e | hx'
      · rw [e]; exact hE2.cached hC1
      · exact hC2 x hx'
    · intro hi
      obtain ⟨hi1, _, hCl1⟩ := hI1 hi
      obtain ⟨hi2, hCl2⟩ := hI2 hi1
      refine ⟨hi2, fun hcl P hf => ?_⟩
      exact hCl2 (by rw [hE1.1]; exact hcl) P ((hCl1 hcl).2 P hf)

theorem Inv_init (store : List Commit) (typedt : TypeDateTime) :
    Inv { git := store, commits := [], changes := [], typeDT := typedt } :=
  ⟨fun _ _ h => by simp [mapGet] at h, fun _ _ h => by simp [mapGet] at h,
    fun _ _ => rfl, fun _ => by simp [mapCount], fun _ => by simp [mapCount]⟩

theorem Settled_init (store : List Commit) (typedt : TypeDateTime) (P : plumbing.Hash → Prop) :
    Settled { git := store, commits := [], changes := [], typeDT := typedt } P :=
  fun _ _ _ h => by simp [mapGet] at h

theorem OpenRepository_post (fuel : Nat) (store it : List Commit) (typedt : TypeDateTime)
    (htype : typedt = TypeDTAuthor ∨ typedt = TypeDTCommitter)
    (hit : ∀ c ∈ it, CommitObject store c.Hash = some c) (hfuel : store.length < fuel) :
    ∃ r, OpenRepository fuel (some store) it typedt = some (some r) ∧
      r.git = store ∧ r.typeDT = typedt ∧ Inv r ∧
      (∀ c ∈ it, mapGet r.commits c.Hash ≠ none) ∧
      (Closed store → Settled r (fun _ => False)) := by
  obtain ⟨r, hr, hE, hC, hI⟩ := forEachCommit_post fuel it
    { git := store, commits := [], changes := [], typeDT := typedt } hit hfuel
  obtain ⟨hi, hF⟩ := hI (Inv_init store typedt)
  refine ⟨r, ?_, hE.1, hE.2.1, hi, hC, fun hcl => hF hcl _ (Settled_init store typedt _)⟩
  have hn : ¬ (typedt ≠ TypeDTAuthor ∧ typedt ≠ TypeDTCommitter) := by
    rcases htype with e | e
    · exact fun x => x.1 e
    · exact fun x => x.2 e
  simp only [OpenRepository, hn, if_false, hr]

theorem Returned.le_resolved {r : Repository} (hi : Inv r) {p : plumbing.Hash} {t : Int}
    (hr : Returned r p t) : ∃ t', resolved r p = some t' ∧ t ≤ t' := by
  obtain ⟨pcs, hp, hor⟩ := hr
  cases hch : mapGet r.changes p with
  | none =>
    rcases hor with e | ⟨pch, hpch, _⟩
    · exact ⟨pcs.when, by simp [resolved, hch, hp], by omega⟩
    · rw [hch] at hpch; cases hpch
  | some ch =>
    refine ⟨ch.new, by simp [resolved, hch], ?_⟩
    rcases hor with e | ⟨pch, hpch, e⟩
    · obtain ⟨_, hlt, cs, _, hcs, _, hw, _⟩ := hi.change p ch hch
      rw [hp] at hcs
      cases hcs
      omega
    · rw [hch] at hpch
      cases hpch
      omega

/-! ## One call on a commit that is not cached, and the results its parents hand back -/

theorem parentsLoop_step
    {recur : Repository → Option plumbing.Hash → Commit → Option (Repository × Ret)}
    {cur pid : plumbing.Hash} {rest : List plumbing.Hash} {r r' : Repository} {n n' : Int}
    {i i' : plumbing.Hash}
    (h : parentsLoop recur cur (pid :: rest) r n i = some (.done r' n' i')) :
    ∃ pobj r1 ret, CommitObject r.git pid = some pobj ∧
      recur r (some cur) pobj = some (r1, ret) ∧
      parentReturns recur cur (pid :: rest) r = (pid, ret) :: parentReturns recur cur rest r1 ∧
      parentsLoop recur cur rest r1
        (if ret.err = true then n else if n < ret.dt then ret.dt else n)
        (if ret.err = true then i else if n < ret.dt then pid else i)
        = some (.done r' n' i') := by
  simp only [parentsLoop] at h
  cases hobj : CommitObject r.git pid with
  | none => simp [hobj] at h
  | some pobj =>
    simp only [hobj] at h
    cases hrec : recur r (some cur) pobj with
    | none => simp [hrec] at h
    | some res =>
      obtain ⟨r1, ret⟩ := res
      simp only [hrec] at h
      refine ⟨pobj, r1, ret, rfl, hrec, by simp [parentReturns, hobj, hrec], ?_⟩
      by_cases herr : ret.err = true
      · simpa [herr] using h
      · by_cases hlt : n < ret.dt
        · simpa [herr, hlt] using h
        · simpa [herr, hlt] using h

theorem parentsLoop_ids
    (recur : Repository → Option plumbing.Hash → Commit → Option (Repository × Ret))
    (cur : plumbing.Hash) : ∀ ps r n i r' n' i',
    parentsLoop recur cur ps r n i = some (.done r' n' i') →
    (parentReturns recur cur ps r).map Prod.fst = ps := by
  intro ps
  induction ps with
  | nil => intro r n i r' n' i' _; rfl
  | cons pid rest ih =>
    intro r n i r' n' i' h
    obtain ⟨pobj, r1, ret, _, _, htr, hloop⟩ := parentsLoop_step h
    rw [htr, List.map_cons, ih r1 _ _ r' n' i' hloop]

theorem parentsLoop_newest
    (recur : Repository → Option plumbing.Hash → Commit → Option (Repository × Ret))
    (cur : plumbing.Hash) : ∀ ps r n i r' n' i',
    parentsLoop recur cur ps r n i = some (.done r' n' i') →
    n' = (okTimes (parentReturns recur cur ps r)).foldl max n := by
  intro ps
  induction ps with
  | nil =>
    intro r n i r' n' i' h
    simp only [parentsLoop, Option.some.injEq, LoopOut.done.injEq] at h
    simp [parentReturns, okTimes, h.2.1]
  | cons pid rest ih =>
    intro r n i r' n' i' h
    obtain ⟨pobj, r1, ret, _, _, htr, hloop⟩ := parentsLoop_step h
    rw [htr, ih r1 _ _ r' n' i' hloop]
    by_cases herr : ret.err = true
    · simp [okTimes, herr]
    · by_cases hlt : n < ret.dt
      · simp [okTimes, herr, hlt, max_eq_right (le_of_lt hlt)]
      · simp [okTimes, herr, hlt, max_eq_left (not_lt.1 hlt)]

theorem parentsLoop_stays
    (recur : Repository → Option plumbing.Hash → Commit → Option (Repository × Ret))
    (cur : plumbing.Hash) : ∀ ps r n i r' n' i',
    parentsLoop recur cur ps r n i = some (.done r' n' i') →
    (∀ e ∈ parentReturns recur cur ps r, e.2.err = true ∨ e.2.dt ≤ n) →
    n' = n ∧ i' = i := by
  intro ps
  induction ps with
  | nil =>
    intro r n i r' n' i' h _
    simp only [parentsLoop, Option.some.injEq, LoopOut.done.injEq] at h
    exact ⟨h.2.1.symm, h.2.2.symm⟩
  | cons pid rest ih =>
    intro r n i r' n' i' h hall
    obtain ⟨pobj, r1, ret, _, _, htr, hloop⟩ := parentsLoop_step h
    rw [htr] at hall
    have h0 := hall (pid, ret) (List.mem_cons_self _ _)
    have hrest : ∀ e ∈ parentReturns recur cur rest r1, e.2.err = true ∨ e.2.dt ≤ n :=
      fun e he => hall e (List.mem_cons_of_mem _ he)
    by_cases herr : ret.err = true
    · simp only [herr, if_true] at hloop
      exact ih r1 n i r' n' i' hloop hrest
    · have hle : ¬ n < ret.dt := by
        rcases h0 with e | e
        · exact absurd e herr
        · simp only at e; omega
      simp only [herr, hle, if_false] at hloop
      exact ih r1 n i r' n' i' hloop hrest

theorem parentsLoop_first_max
    (recur : Repository → Option plumbing.Hash → Commit → Option (Repository × Ret))
    (cur : plumbing.Hash) (p : plumbing.Hash) (T : Int) (post : List (plumbing.Hash × Ret))
    (hpost : ∀ e ∈ post, e.2.err = true ∨ e.2.dt ≤ T) :
    ∀ pre ps r n i r' n' i',
    parentsLoop recur cur ps r n i = some (.done r' n' i') →
    parentReturns recur cur ps r = pre ++ (p, ⟨T, false⟩) :: post →
    (∀ e ∈ pre, e.2.err = true ∨ e.2.dt < T) → n < T →
    n' = T ∧ i' = p := by
  intro pre
  induction pre with
  | nil =>
    intro ps r n i r' n' i' h htr _ hlt
    cases ps with
    | nil => simp [parentReturns] at htr
    | cons pid rest =>
      obtain ⟨pobj, r1, ret, _, _, htr', hloop⟩ := parentsLoop_step h
      rw [htr', List.nil_append, List.cons.injEq, Prod.mk.injEq] at htr
      obtain ⟨⟨e1, e2⟩, e3⟩ := htr
      subst e1
      subst e2
      simp only [Bool.false_eq_true, if_false, hlt, if_true] at hloop
      exact parentsLoop_stays recur cur rest r1 T pid r' n' i' hloop (by rw [e3]; exact hpost)
  | cons e0 pre ih =>
    intro ps r n i r' n' i' h htr hpre hlt
    cases ps with
    | nil => simp [parentReturns] at htr
    | cons pid rest =>
      obtain ⟨pobj, r1, ret, _, _, htr', hloop⟩ := parentsLoop_step h
      rw [htr', List.cons_append, List.cons.injEq] at htr
      obtain ⟨e1, e3⟩ := htr
      have h0 := hpre e0 (List.mem_cons_self _ _)
      rw [← e1] at h0
      have hpre' : ∀ e ∈ pre, e.2.err = true ∨ e.2.dt < T :=
        fun e he => hpre e (List.mem_cons_of_mem _ he)
      by_cases herr : ret.err = true
      · simp only [herr, if_true] at hloop
        exact ih rest r1 n i r' n' i' hloop e3 hpre' hlt
      · have hdt : ret.dt < T := by
          rcases h0 with e | e
          · exact absurd e herr
          · exact e
        by_cases hnew : n < ret.dt
        · simp only [herr, hnew, if_false, if_true] at hloop
          exact ih rest r1 ret.dt pid r' n' i' hloop e3 hpre' hdt
        · simp only [herr, hnew, if_false] at hloop
          exact ih rest r1 n i r' n' i' hloop e3 hpre' hlt

theorem parentsLoop_done_of_readable
    (recur : Repository → Option plumbing.Hash → Commit → Option (Repository × Ret))
    (cur : plumbing.Hash)
    (HR : ∀ r child c r' ret, CommitObject r.git c.Hash = some c →
      recur r child c = some (r', ret) → AddPost r c r' ret) :
    ∀ ps r n i out, parentsLoop recur cur ps r n i = some out →
    (∀ q ∈ ps, CommitObject r.git q ≠ none) → ∃ r' n' i', out = .done r' n' i' := by
  intro ps
  induction ps with
  | nil =>
    intro r n i out h _
    simp only [parentsLoop, Option.some.injEq] at h
    exact ⟨r, n, i, h.symm⟩
  | cons pid rest ih =>
    intro r n i out h hall
    simp only [parentsLoop] at h
    cases hobj : CommitObject r.git pid with
    | none => exact absurd hobj (hall pid (List.mem_cons_self _ _))
    | some pobj =>
      simp only [hobj] at h
      cases hrec : recur r (some cur) pobj with
      | none => simp [hrec] at h
      | some res =>
        obtain ⟨r1, ret⟩ := res
        simp only [hrec] at h
        have hobj' : CommitObject r.git pobj.Hash = some pobj := by
          rw [CommitObject_hash hobj]; exact hobj
        have hE : Ext r r1 := (HR r (some cur) pobj r1 ret hobj' hrec).1
        have hall1 : ∀ q ∈ rest, CommitObject r1.git q ≠ none := by
          intro q hq; rw [hE.1]; exact hall q (List.mem_cons_of_mem _ hq)
        split at h
        · exact ih r1 _ _ out h hall1
        · split at h
          · exact ih r1 _ _ out h hall1
          · exact ih r1 _ _ out h hall1

theorem enterCommit_ext (r : Repository) (child : Option plumbing.Hash) (c : Commit)
    (hm : mapGet r.commits c.Hash = none) : Ext r (enterCommit r child c) :=
  (Ext_createCommitStruct r c hm).trans (Ext_addChild _ _ _)

theorem enterCommit_cached (r : Repository) (child : Option plumbing.Hash) (c : Commit) :
    ∃ cs, mapGet (enterCommit r child c).commits c.Hash = some cs ∧
      cs.when = r.commitWhen c := by
  have h1 : mapGet (r.createCommitStruct c).1.commits c.Hash
      = some (r.createCommitStruct c).2 := by
    simp [Repository.createCommitStruct, mapGet_mapSet]
  obtain ⟨x, hx, _, wx⟩ := mapGet_addChild _ (r.createCommitStruct c).2.id child _ _ h1
  exact ⟨x, hx, wx⟩

/-- The three ways in which a call on a commit that is not cached ends. -/
theorem addCommit_uncached {fuel : Nat} {r r' : Repository} {child : Option plumbing.Hash}
    {c : Commit} {ret : Ret} (hm : mapGet r.commits c.Hash = none)
    (h : addCommit (fuel + 1) r child c = some (r', ret)) :
    ∃ out, parentsLoop (addCommit fuel) c.Hash c.ParentHashes (enterCommit r child c)
        epoch zeroHash = some out ∧
      mapGet out.repo.changes c.Hash = mapGet r.changes c.Hash ∧
      ((out = .abort r' ∧ ret = ⟨epoch, true⟩) ∨
       (∃ r3 n i, out = .done r3 n i ∧ r.commitWhen c < n ∧
          r' = (r3.createChange (r.createCommitStruct c).2 n i).1 ∧ ret = ⟨n + 1, false⟩) ∨
       (∃ n i, out = .done r' n i ∧ ¬ r.commitWhen c < n ∧
          ret = ⟨r.commitWhen c, false⟩)) := by
  simp only [addCommit, hm] at h
  have hloopdef : parentsLoop (addCommit fuel) (r.createCommitStruct c).2.id c.ParentHashes
      ((r.createCommitStruct c).1.addChild (r.createCommitStruct c).2.id child) epoch zeroHash
      = parentsLoop (addCommit fuel) c.Hash c.ParentHashes (enterCommit r child c)
        epoch zeroHash := rfl
  rw [hloopdef] at h
  cases hloop : parentsLoop (addCommit fuel) c.Hash c.ParentHashes (enterCommit r child c)
      epoch zeroHash with
  | none => simp [hloop] at h
  | some out =>
    obtain ⟨hE, _⟩ := parentsLoop_post (addCommit fuel) _ (addCommit_post fuel) _ _ _ _ out hloop
    obtain ⟨cs2, hcs2, _⟩ := enterCommit_cached r child c
    have hkeep : mapGet out.repo.changes c.Hash = mapGet r.changes c.Hash := by
      rw [hE.2.2.2 c.Hash (by simp [hcs2])]
      rfl
    refine ⟨out, rfl, hkeep, ?_⟩
    simp only [hloop] at h
    cases out with
    | abort r3 =>
      simp only [Option.some.injEq, Prod.mk.injEq] at h
      exact Or.inl ⟨by rw [h.1], h.2.symm⟩
    | done r3 n i =>
      have hwhen : (r.createCommitStruct c).2.when = r.commitWhen c := rfl
      simp only [hwhen] at h
      by_cases hlt : r.commitWhen c < n
      · simp only [hlt, if_true, Option.some.injEq, Prod.mk.injEq] at h
        exact Or.inr (Or.inl ⟨r3, n, i, rfl, hlt, h.1.symm, h.2.symm⟩)
      · simp only [hlt, if_false, Option.some.injEq, Prod.mk.injEq] at h
        exact Or.inr (Or.inr ⟨n, i, by rw [h.1], hlt, h.2.symm⟩)

theorem parentReturns_ok
    (recur : Repository → Option plumbing.Hash → Commit → Option (Repository × Ret))
    (cur : plumbing.Hash)
    (HR : ∀ r child c r' ret, CommitObject r.git c.Hash = some c →
      recur r child c = some (r', ret) → AddPost r c r' ret) :
    ∀ ps r, Inv r → Closed r.git → ∀ e ∈ parentReturns recur cur ps r, e.2.err = false := by
  intro ps
  induction ps with
  | nil =>
    intro r _ _ e he
    simp [parentReturns] at he
  | cons pid rest ih =>
    intro r hi hcl e he
    simp only [parentReturns] at he
    cases hobj : CommitObject r.git pid with
    | none => simp [hobj] at he
    | some pobj =>
      simp only [hobj] at he
      cases hrec : recur r (some cur) pobj with
      | none => simp [hrec] at he
      | some res =>
        obtain ⟨r1, ret⟩ := res
        simp only [hrec, List.mem_cons] at he
        have hobj' : CommitObject r.git pobj.Hash = some pobj := by
          rw [CommitObject_hash hobj]; exact hobj
        obtain ⟨hE, _, hI⟩ := HR r (some cur) pobj r1 ret hobj' hrec
        obtain ⟨hi1, _, hCl⟩ := hI hi
        rcases he with e1 | e1
        · rw [e1]
          exact (hCl hcl).1
        · exact ih r1 hi1 (by rw [hE.1]; exact hcl) e e1

theorem split_of_map_fst {β : Type} (tr : List (plumbing.Hash × β))
    (pre post : List plumbing.Hash) (p : plumbing.Hash)
    (h : tr.map Prod.fst = pre ++ p :: post) :
    ∃ pre' e post', tr = pre' ++ e :: post' ∧ pre'.map Prod.fst = pre ∧ e.1 = p ∧
      post'.map Prod.fst = post := by
  induction pre generalizing tr with
  | nil =>
    cases tr with
    | nil => simp at h
    | cons e rest =>
      simp only [List.map_cons, List.nil_append, List.cons.injEq] at h
      exact ⟨[], e, rest, rfl, rfl, h.1, h.2⟩
  | cons q pre ih =>
    cases tr with
    | nil => simp at h
    | cons e rest =>
      simp only [List.map_cons, List.cons_append, List.cons.injEq] at h
      obtain ⟨pre', e', post', h1, h2, h3, h4⟩ := ih rest h.2
      exact ⟨e :: pre', e', post', by rw [h1]; rfl, by simp [h.1, h2], h3, h4⟩

theorem parentsLoop_unreadable
    (recur : Repository → Option plumbing.Hash → Commit → Option (Repository × Ret))
    (cur : plumbing.Hash)
    (HR : ∀ r child c r' ret, CommitObject r.git c.Hash = some c →
      recur r child c = some (r', ret) → AddPost r c r' ret)
    (p : plumbing.Hash) (post post' : List plumbing.Hash) :
    ∀ pre r n i, CommitObject r.git p = none →
      parentsLoop recur cur (pre ++ p :: post) r n i
        = parentsLoop recur cur (pre ++ p :: post') r n i ∧
      ∀ out, parentsLoop recur cur (pre ++ p :: post) r n i = some out →
        ∃ r3, out = .abort r3 := by
  intro pre
  induction pre with
  | nil =>
    intro r n i hp
    simp only [List.nil_append, parentsLoop, hp, true_and]
    intro out h
    exact ⟨r, by cases h; rfl⟩
  | cons pid rest ih =>
    intro r n i hp
    simp only [List.cons_append, parentsLoop]
    cases hobj : CommitObject r.git pid with
    | none =>
      simp only [true_and]
      intro out h
      exact ⟨r, by cases h; rfl⟩
    | some pobj =>
      simp only []
      cases hrec : recur r (some cur) pobj with
      | none => simp
      | some res =>
        obtain ⟨r1, ret⟩ := res
        have hobj' : CommitObject r.git pobj.Hash = some pobj := by
          rw [CommitObject_hash hobj]; exact hobj
        have hE : Ext r r1 := (HR r (some cur) pobj r1 ret hobj' hrec).1
        have hp1 : CommitObject r1.git p = none := by rw [hE.1]; exact hp
        simp only []
        split
        · exact ih r1 _ _ hp1
        · split
          · exact ih r1 _ _ hp1
          · exact ih r1 _ _ hp1

theorem Ancestor_orderedPair {a h : plumbing.Hash} (ha : Ancestor orderedPair a h) :
    a = 1 ∧ h = 2 := by
  induction ha with
  | parent hc hp =>
    rename_i h' p c
    have hmem := CommitObject_mem hc
    have hh := CommitObject_hash hc
    simp only [orderedPair, List.mem_cons, List.mem_singleton, List.not_mem_nil, or_false]
      at hmem
    rcases hmem with e | e
    · subst e; simp at hp
    · subst e
      simp only [List.mem_singleton] at hp
      exact ⟨hp, hh.symm⟩
  | step _ _ ih1 ih2 =>
    exact absurd (ih1.2.symm.trans ih2.1) (by decide)

/-! ## Sequences of calls, more fuel, and the number of nodes -/

theorem addCommits_post (fuel : Nat) : ∀ calls r,
    (∀ x ∈ calls, CommitObject r.git x.2.Hash = some x.2) → r.git.length < fuel →
    ∃ r', addCommits fuel calls r = some r' ∧ Ext r r' ∧ (Inv r → Inv r') := by
  intro calls
  induction calls with
  | nil =>
    intro r _ _
    exact ⟨r, rfl, Ext.refl r, fun hi => hi⟩
  | cons x rest ih =>
    intro r hcalls hfuel
    have hobj := hcalls x (List.mem_cons_self x rest)
    obtain ⟨⟨r1, ret⟩, hres⟩ := addCommit_total fuel r x.1 x.2 hobj
      (lt_of_le_of_lt (uncached_le_length r) hfuel)
    obtain ⟨hE1, _, hI1⟩ := addCommit_post fuel r x.1 x.2 r1 ret hobj hres
    obtain ⟨r', hr', hE2, hI2⟩ := ih r1
      (fun y hy => by rw [hE1.1]; exact hcalls y (List.mem_cons_of_mem _ hy))
      (by rw [hE1.1]; exact hfuel)
    exact ⟨r', by simp only [addCommits, hres]; exact hr', hE1.trans hE2,
      fun hi => hI2 (hI1 hi).1⟩

theorem parentsLoop_more_fuel
    (recur recur' : Repository → Option plumbing.Hash → Commit → Option (Repository × Ret))
    (cur : plumbing.Hash)
    (H : ∀ r child c res, recur r child c = some res → recur' r child c = some res) :
    ∀ ps r n i out, parentsLoop recur cur ps r n i = some out →
      parentsLoop recur' cur ps r n i = some out := by
  intro ps
  induction ps with
  | nil => intro r n i out h; exact h
  | cons pid rest ih =>
    intro r n i out h
    simp only [parentsLoop] at h ⊢
    cases hobj : CommitObject r.git pid with
    | none => simpa [hobj] using h
    | some pobj =>
      simp only [hobj] at h ⊢
      cases hrec : recur r (some cur) pobj with
      | none => simp [hrec] at h
      | some res =>
        obtain ⟨r1, ret⟩ := res
        simp only [hrec, H r (some cur) pobj (r1, ret) hrec] at h ⊢
        split at h
        · rename_i herr
          simp only [herr, if_true]
          exact ih r1 _ _ out h
        · rename_i herr
          split at h
          · rename_i hlt
            simp only [herr, hlt, if_false, if_true]
            exact ih r1 _ _ out h
          · rename_i hlt
            simp only [herr, hlt, if_false]
            exact ih r1 _ _ out h

theorem addCommit_succ_fuel : ∀ fuel r child c res, addCommit fuel r child c = some res →
    addCommit (fuel + 1) r child c = some res := by
  intro fuel
  induction fuel with
  | zero =>
    intro r child c res h
    simp [addCommit] at h
  | succ fuel ih =>
    intro r child c res h
    rw [addCommit] at h ⊢
    cases hm : mapGet r.commits c.Hash with
    | some current => simpa [hm] using h
    | none =>
      simp only [hm] at h ⊢
      cases hloop : parentsLoop (addCommit fuel) (r.createCommitStruct c).2.id c.ParentHashes
          ((r.createCommitStruct c).1.addChild (r.createCommitStruct c).2.id child)
          epoch zeroHash with
      | none => simp [hloop] at h
      | some out =>
        rw [parentsLoop_more_fuel (addCommit fuel) (addCommit (fuel + 1)) _ ih _ _ _ _ out hloop]
        rw [hloop] at h
        exact h

theorem addCommit_more_fuel {fuel fuel' : Nat} (hle : fuel ≤ fuel') {r : Repository}
    {child : Option plumbing.Hash} {c : Commit} {res : Repository × Ret}
    (h : addCommit fuel r child c = some res) : addCommit fuel' r child c = some res := by
  induction hle with
  | refl => exact h
  | step _ ih => exact addCommit_succ_fuel _ r child c res ih

theorem mapModify_length {α : Type} (k : plumbing.Hash) (f : α → α)
    (m : List (plumbing.Hash × α)) : (mapModify k f m).length = m.length := by
  induction m with
  | nil => rfl
  | cons e rest ih =>
    obtain ⟨ke, ve⟩ := e
    by_cases h : ke = k <;> simp [mapModify, h, ih]

theorem NodesBound.rfl_of (r : Repository) : NodesBound r r :=
  ⟨le_refl _, le_refl _⟩

theorem NodesBound.chain {r1 r2 r3 : Repository} (h12 : NodesBound r1 r2)
    (h23 : NodesBound r2 r3) : NodesBound r1 r3 :=
  ⟨le_trans h12.1 h23.1, le_trans h23.2 h12.2⟩

theorem NodesBound_addChild (r : Repository) (p : plumbing.Hash)
    (child : Option plumbing.Hash) : NodesBound r (r.addChild p child) := by
  have hlen : (r.addChild p child).commits.length = r.commits.length :=
    mapModify_length _ _ _
  have hu := (Ext_addChild r p child).uncached_le
  exact ⟨by omega, by omega⟩

theorem NodesBound_enterCommit (r : Repository) (child : Option plumbing.Hash) (c : Commit)
    (hobj : CommitObject r.git c.Hash = some c) (hm : mapGet r.commits c.Hash = none) :
    NodesBound r (enterCommit r child c) ∧
      (enterCommit r child c).commits.length = r.commits.length + 1 := by
  have hlen : (enterCommit r child c).commits.length = r.commits.length + 1 := by
    simp [enterCommit, Repository.addChild, mapModify_length, Repository.createCommitStruct,
      mapSet]
  obtain ⟨cs, hcs, _⟩ := enterCommit_cached r child c
  have hu := (enterCommit_ext r child c hm).uncached_lt hobj hm (by simp [hcs])
  exact ⟨⟨by omega, by omega⟩, hlen⟩

theorem parentsLoop_nodes
    (recur : Repository → Option plumbing.Hash → Commit → Option (Repository × Ret))
    (cur : plumbing.Hash)
    (HN : ∀ r child c r' ret, CommitObject r.git c.Hash = some c →
      recur r child c = some (r', ret) → NodesBound r r') :
    ∀ ps r n i out, parentsLoop recur cur ps r n i = some out → NodesBound r out.repo := by
  intro ps
  induction ps with
  | nil =>
    intro r n i out h
    simp only [parentsLoop, Option.some.injEq] at h
    subst h
    exact NodesBound.rfl_of r
  | cons pid rest ih =>
    intro r n i out h
    simp only [parentsLoop] at h
    cases hobj : CommitObject r.git pid with
    | none =>
      simp only [hobj, Option.some.injEq] at h
      subst h
      exact NodesBound.rfl_of r
    | some pobj =>
      simp only [hobj] at h
      cases hrec : recur r (some cur) pobj with
      | none => simp [hrec] at h
      | some res =>
        obtain ⟨r1, ret⟩ := res
        simp only [hrec] at h
        have hobj' : CommitObject r.git pobj.Hash = some pobj := by
          rw [CommitObject_hash hobj]; exact hobj
        have h1 := HN r (some cur) pobj r1 ret hobj' hrec
        split at h
        · exact h1.chain (ih r1 _ _ out h)
        · split at h
          · exact h1.chain (ih r1 _ _ out h)
          · exact h1.chain (ih r1 _ _ out h)

theorem addCommit_nodes : ∀ fuel r child c r' ret, CommitObject r.git c.Hash = some c →
    addCommit fuel r child c = some (r', ret) →
    NodesBound r r' ∧ (mapGet r.commits c.Hash = none → r.commits.length < r'.commits.length) := by
  intro fuel
  induction fuel with
  | zero =>
    intro r child c r' ret _ h
    simp [addCommit] at h
  | succ fuel ih =>
    intro r child c r' ret hobj h
    cases hm : mapGet r.commits c.Hash with
    | some current =>
      simp only [addCommit, hm, Option.some.injEq, Prod.mk.injEq] at h
      rw [← h.1]
      exact ⟨NodesBound_addChild r _ _, fun x => by cases x⟩
    | none =>
      obtain ⟨out, hloop, _, hcase⟩ := addCommit_uncached hm h
      obtain ⟨hb2, hlen2⟩ := NodesBound_enterCommit r child c hobj hm
      have hb3 := parentsLoop_nodes (addCommit fuel) c.Hash
        (fun r child c r' ret ho hr => (ih r child c r' ret ho hr).1) _ _ _ _ out hloop
      have hb := hb2.chain hb3
      rcases hcase with ⟨e, _⟩ | ⟨r3, n, i, e, _, er, _⟩ | ⟨n, i, e, _, _⟩
      · rw [e] at hb hb3
        exact ⟨hb, fun _ => by have := hb3.1; simp only [LoopOut.repo] at this; omega⟩
      · rw [e] at hb hb3
        have hb' : NodesBound r r' := by rw [er]; exact hb
        have h3 : (enterCommit r child c).commits.length ≤ r'.commits.length := by
          rw [er]; exact hb3.1
        exact ⟨hb', fun _ => by omega⟩
      · rw [e] at hb hb3
        exact ⟨hb, fun _ => by have := hb3.1; simp only [LoopOut.repo] at this; omega⟩

/-! ## The claims -/

/-- C1, evaluated on the chain A (100), B (50), C (90) enumerated as B, A, C: after the
traversal B is a parent of C, the resolved timestamp of C is 90 and that of B is 101, so the
child is resolved before its parent. The second visit of B answers its own timestamp 50. -/
theorem traversal_child_resolved_before_parent :
    ∃ r, OpenRepository 4 (some chainABC)
        [⟨2, 50, 50, [1]⟩, ⟨1, 100, 100, []⟩, ⟨3, 90, 90, [2]⟩] TypeDTAuthor = some (some r) ∧
      CommitObject r.git 3 = some ⟨3, 90, 90, [2]⟩ ∧
      resolved r 3 = some 90 ∧ resolved r 2 = some 101 ∧ mapGet r.changes 3 = none :=
  ⟨_, rfl, by decide, by decide, by decide, by decide⟩

/-- C2 as stated fails on a root commit dated before the epoch: after the traversal it has a
Change although it has no parent at all. -/
theorem change_iff_older_than_parents_fails :
    ∃ r c, OpenRepository 2 (some oldRoot) oldRoot TypeDTAuthor = some (some r) ∧
      CommitObject r.git 1 = some c ∧
      ¬ (mapGet r.changes 1 ≠ none ↔
        ∃ p ∈ c.ParentHashes, ∃ t, resolved r p = some t ∧ r.commitWhen c < t) := by
  refine ⟨_, ⟨1, -5, -5, []⟩, rfl, by decide, ?_⟩
  intro h
  have h1 := h.1 (by decide)
  simp at h1

/-- C2, amended: after the traversal of a store in which every read succeeds, a cached commit
that has a Change is older than the epoch sentinel or than the resolved timestamp of one of
its parents, and a cached commit that is older than the own timestamp of one of its parents
has a Change. Every enumerated commit is cached. -/
theorem change_between_own_and_resolved_parent_times (fuel : Nat) (store it : List Commit)
    (typedt : TypeDateTime) (htype : typedt = TypeDTAuthor ∨ typedt = TypeDTCommitter)
    (hit : ∀ c ∈ it, CommitObject store c.Hash = some c) (hcl : Closed store)
    (hfuel : store.length < fuel) :
    ∃ r, OpenRepository fuel (some store) it typedt = some (some r) ∧
      (∀ c ∈ it, mapGet r.commits c.Hash ≠ none) ∧
      ∀ h c, CommitObject store h = some c → mapGet r.commits h ≠ none →
        (mapGet r.changes h ≠ none →
          r.commitWhen c < epoch ∨
          ∃ p ∈ c.ParentHashes, ∃ t, resolved r p = some t ∧ r.commitWhen c < t) ∧
        ((∃ p ∈ c.ParentHashes, ∃ pc, CommitObject store p = some pc ∧
            r.commitWhen c < r.commitWhen pc) → mapGet r.changes h ≠ none) := by
  obtain ⟨r, hr, hgit, _, hi, hC, hF⟩ := OpenRepository_post fuel store it typedt htype hit hfuel
  refine ⟨r, hr, hC, ?_⟩
  intro h c hobj hcached
  have hobj' : CommitObject r.git h = some c := by rw [hgit]; exact hobj
  constructor
  · intro hch
    cases hm : mapGet r.changes h with
    | none => exact absurd hm hch
    | some ch =>
      obtain ⟨_, _, cs, c', hcs, hc', hw, hor⟩ := hi.change h ch hm
      rw [hobj'] at hc'
      cases hc'
      obtain ⟨_, c'', hc'', hw'⟩ := hi.node h cs hcs
      rw [hobj'] at hc''
      cases hc''
      rcases hor with ⟨_, _, h3⟩ | ⟨h1, _, h3, h4⟩
      · left; omega
      · right
        obtain ⟨t', ht', hle⟩ := h4.le_resolved hi
        exact ⟨ch.from_, h1, t', ht', by omega⟩
  · rintro ⟨p, hp, pc, hpc, hlt⟩ hnone'
    cases hm : mapGet r.commits h with
    | none => exact hcached hm
    | some cs =>
      obtain ⟨pcs, hpcs, hle⟩ := hF hcl h cs c hm (fun x => x) hnone' hobj' p hp
      obtain ⟨_, c1, hc1, hw1⟩ := hi.node h cs hm
      obtain ⟨_, c2, hc2, hw2⟩ := hi.node p pcs hpcs
      rw [hobj'] at hc1
      cases hc1
      rw [hgit, hpc] at hc2
      cases hc2
      omega

/-- Witness of C2, amended: the chain A, B, C enumerated as B, A, C. -/
theorem change_between_own_and_resolved_parent_times_witness :
    ∃ r, OpenRepository 4 (some chainABC)
        [⟨2, 50, 50, [1]⟩, ⟨1, 100, 100, []⟩, ⟨3, 90, 90, [2]⟩] TypeDTAuthor = some (some r) ∧
      (∀ c ∈ [(⟨2, 50, 50, [1]⟩ : Commit), ⟨1, 100, 100, []⟩, ⟨3, 90, 90, [2]⟩],
        mapGet r.commits c.Hash ≠ none) ∧
      ∀ h c, CommitObject chainABC h = some c → mapGet r.commits h ≠ none →
        (mapGet r.changes h ≠ none →
          r.commitWhen c < epoch ∨
          ∃ p ∈ c.ParentHashes, ∃ t, resolved r p = some t ∧ r.commitWhen c < t) ∧
        ((∃ p ∈ c.ParentHashes, ∃ pc, CommitObject chainABC p = some pc ∧
            r.commitWhen c < r.commitWhen pc) → mapGet r.changes h ≠ none) :=
  change_between_own_and_resolved_parent_times 4 chainABC
    [⟨2, 50, 50, [1]⟩, ⟨1, 100, 100, []⟩, ⟨3, 90, 90, [2]⟩] TypeDTAuthor (Or.inl rfl)
    (by decide) (by unfold Closed; decide) (by decide)

/-- C3, evaluated on the chain A (100), B (50) from the empty cache: the first call on B
creates the Change of B and returns the corrected time 101, the second call on B returns the
own timestamp 50; B has one Change record after both calls. -/
theorem second_call_returns_own_timestamp :
    ∃ r1 r2, addCommit 3 (emptyRepository chainAB TypeDTAuthor) none ⟨2, 50, 50, [1]⟩
        = some (r1, ⟨101, false⟩) ∧
      addCommit 3 r1 none ⟨2, 50, 50, [1]⟩ = some (r2, ⟨50, false⟩) ∧
      mapCount r1.changes 2 = 1 ∧ mapCount r2.changes 2 = 1 :=
  ⟨_, _, rfl, rfl, by decide, by decide⟩

/-- C4, evaluated on the chain A (100), B (50), C (40) enumerated as B, C: the Change of C
has the causing parent B and the corrected time 51, while the resolved timestamp of B is
101. -/
theorem corrected_time_below_resolved_parent :
    ∃ r ch, OpenRepository 4 (some chainABC40)
        [⟨2, 50, 50, [1]⟩, ⟨3, 40, 40, [2]⟩] TypeDTAuthor = some (some r) ∧
      mapGet r.changes 3 = some ch ∧ ch.from_ = 2 ∧ ch.new = 51 ∧
      resolved r 2 = some 101 :=
  ⟨_, _, rfl, rfl, rfl, rfl, by decide⟩

/-- C5 as stated fails on a root commit dated before the epoch: its Change has the corrected
time 1 although no parent handed back any timestamp. -/
theorem corrected_time_without_parent_time :
    ∃ r' ch, addCommit 2 (emptyRepository oldRoot TypeDTAuthor) none ⟨1, -5, -5, []⟩
        = some (r', ⟨1, false⟩) ∧
      mapGet r'.changes 1 = some ch ∧ ch.new = 1 ∧
      ¬ ∃ t ∈ okTimes (parentResolutions 2 (emptyRepository oldRoot TypeDTAuthor) none
            ⟨1, -5, -5, []⟩),
          (∀ t' ∈ okTimes (parentResolutions 2 (emptyRepository oldRoot TypeDTAuthor) none
            ⟨1, -5, -5, []⟩), t' ≤ t) ∧ ch.new = t + 1 := by
  refine ⟨_, _, rfl, rfl, rfl, ?_⟩
  simp [parentResolutions, parentReturns, okTimes]

/-- C5, amended: whenever a call of `addCommit` on a commit that is not cached creates a
Change for it, the corrected time is one second more than the largest of the epoch sentinel
and the timestamps that the resolutions of its parents returned without error, the original
time is the own timestamp of the commit, the corrected time is strictly greater than the
original time, and the call returns the corrected time without error. -/
theorem change_is_newest_parent_time_plus_one (fuel : Nat) (r r' : Repository)
    (child : Option plumbing.Hash) (c : Commit) (ret : Ret) (ch : changeStruct)
    (hm : mapGet r.commits c.Hash = none) (hno : mapGet r.changes c.Hash = none)
    (hres : addCommit fuel r child c = some (r', ret))
    (hch : mapGet r'.changes c.Hash = some ch) :
    ch.new = (okTimes (parentResolutions fuel r child c)).foldl max epoch + 1 ∧
      ch.when = r.commitWhen c ∧ ch.when < ch.new ∧ ret = ⟨ch.new, false⟩ := by
  cases fuel with
  | zero => simp [addCommit] at hres
  | succ fuel =>
    obtain ⟨out, hloop, hkeep, hcase⟩ := addCommit_uncached hm hres
    rcases hcase with ⟨e, _⟩ | ⟨r3, n, i, e, hlt, er, eret⟩ | ⟨n, i, e, _, _⟩
    · rw [e] at hkeep
      rw [show mapGet r'.changes c.Hash = mapGet r.changes c.Hash from hkeep, hno] at hch
      cases hch
    · rw [e] at hloop
      have hn := parentsLoop_newest (addCommit fuel) c.Hash _ _ _ _ _ _ _ hloop
      have hnew : mapGet r'.changes c.Hash
          = some (r3.createChange (r.createCommitStruct c).2 n i).2 := by
        rw [er]
        simp [Repository.createChange, Repository.createCommitStruct, mapGet_mapSet]
      rw [hnew] at hch
      cases hch
      have h1 : (r3.createChange (r.createCommitStruct c).2 n i).2.new = n + 1 := rfl
      have h2 : (r3.createChange (r.createCommitStruct c).2 n i).2.when = r.commitWhen c := rfl
      refine ⟨?_, h2, ?_, ?_⟩
      · rw [h1, hn]; rfl
      · rw [h1, h2]; omega
      · rw [h1]; exact eret
    · rw [e] at hkeep
      rw [show mapGet r'.changes c.Hash = mapGet r.changes c.Hash from hkeep, hno] at hch
      cases hch

theorem addCommit_chainAB :
    addCommit 3 (emptyRepository chainAB TypeDTAuthor) none ⟨2, 50, 50, [1]⟩
      = some (chainABResolved, ⟨101, false⟩) := rfl

theorem addCommit_mergeM :
    addCommit 3 (emptyRepository mergeM TypeDTAuthor) none ⟨3, 10, 10, [1, 2]⟩
      = some (mergeMResolved, ⟨301, false⟩) := rfl

/-- Witness of C5, amended: B (50) with the parent A (100) is corrected to 101. -/
theorem change_is_newest_parent_time_plus_one_witness :
    (⟨2, 50, 101, 1⟩ : changeStruct).new
        = (okTimes (parentResolutions 3 (emptyRepository chainAB TypeDTAuthor) none
            ⟨2, 50, 50, [1]⟩)).foldl max epoch + 1 ∧
      (⟨2, 50, 101, 1⟩ : changeStruct).when
        = (emptyRepository chainAB TypeDTAuthor).commitWhen ⟨2, 50, 50, [1]⟩ ∧
      (⟨2, 50, 101, 1⟩ : changeStruct).when < (⟨2, 50, 101, 1⟩ : changeStruct).new ∧
      (⟨101, false⟩ : Ret) = ⟨(⟨2, 50, 101, 1⟩ : changeStruct).new, false⟩ :=
  change_is_newest_parent_time_plus_one 3 (emptyRepository chainAB TypeDTAuthor)
    chainABResolved none
    ⟨2, 50, 50, [1]⟩ ⟨101, false⟩ ⟨2, 50, 101, 1⟩ (by decide) (by decide)
    addCommit_chainAB (by decide)

/-- C6 as stated fails on a merge dated before the epoch whose two parents are both dated at
the epoch: the parents have the same resolved timestamp 0, which exceeds the timestamp -5 of
the merge, and the causing parent recorded is the zero hash, not the first parent. -/
theorem tie_at_epoch_records_zero_hash :
    ∃ r' ret ch, addCommit 3 (emptyRepository epochMerge TypeDTAuthor) none ⟨3, -5, -5, [1, 2]⟩
        = some (r', ret) ∧
      resolved r' 1 = some 0 ∧ resolved r' 2 = some 0 ∧ (-5 : Int) < 0 ∧
      mapGet r'.changes 3 = some ch ∧ ch.from_ = zeroHash ∧ ch.from_ ≠ 1 :=
  ⟨_, _, _, rfl, by decide, by decide, by decide, rfl, rfl, by decide⟩

/-- C6, amended: take a commit of the store that is not cached, in a reachable state and a
store in which every read succeeds, and let `p` be the earliest parent in the order of
`ParentHashes` whose resolved timestamp is `T`, the maximum among the parents, with `T`
after the epoch sentinel and after the own timestamp of the commit. With enough fuel
`addCommit` returns, and whenever the resolution of each parent handed back the resolved
timestamp of that parent, the Change of the commit has the causing parent `p` and the
corrected time `T + 1`, which the call returns. -/
theorem first_newest_parent_is_recorded (fuel : Nat) (r : Repository)
    (child : Option plumbing.Hash) (c : Commit) (pre post : List plumbing.Hash)
    (p : plumbing.Hash) (T : Int) (hi : Inv r) (hcl : Closed r.git)
    (hobj : CommitObject r.git c.Hash = some c) (hm : mapGet r.commits c.Hash = none)
    (hfuel : uncached r < fuel) (hps : c.ParentHashes = pre ++ p :: post)
    (hepoch : epoch < T) (hown : r.commitWhen c < T) :
    (∃ res, addCommit fuel r child c = some res) ∧
    ∀ r' ret, addCommit fuel r child c = some (r', ret) →
      (∀ e ∈ parentResolutions fuel r child c, resolved r' e.1 = some e.2.dt) →
      resolved r' p = some T →
      (∀ q ∈ pre, ∀ t, resolved r' q = some t → t < T) →
      (∀ q ∈ post, ∀ t, resolved r' q = some t → t ≤ T) →
      ∃ ch, mapGet r'.changes c.Hash = some ch ∧ ch.from_ = p ∧ ch.new = T + 1 ∧
        ret = ⟨T + 1, false⟩ := by
  refine ⟨addCommit_total fuel r child c hobj hfuel, ?_⟩
  intro r' ret hres hsame hp hpre hpost
  cases fuel with
  | zero => simp [addCommit] at hres
  | succ fuel =>
    obtain ⟨out, hloop, _, hcase⟩ := addCommit_uncached hm hres
    have hread2 : ∀ q ∈ c.ParentHashes, CommitObject (enterCommit r child c).git q ≠ none :=
      hcl.parents hobj
    obtain ⟨r3, n, i, eout⟩ := parentsLoop_done_of_readable (addCommit fuel) c.Hash
      (addCommit_post fuel) _ _ _ _ out hloop hread2
    rw [eout] at hloop
    have hi2 : Inv (enterCommit r child c) :=
      Inv_addChild (Inv_createCommitStruct hi c hobj hm) _ _
    have hcl2 : Closed (enterCommit r child c).git := hcl
    have hok := parentReturns_ok (addCommit fuel) c.Hash (addCommit_post fuel)
      c.ParentHashes _ hi2 hcl2
    have hids := parentsLoop_ids (addCommit fuel) c.Hash _ _ _ _ _ _ _ hloop
    rw [hps] at hids
    obtain ⟨pre', e, post', htr, hpre', he, hpost'⟩ := split_of_map_fst _ pre post p hids
    have hsame' : ∀ x ∈ parentReturns (addCommit fuel) c.Hash c.ParentHashes
        (enterCommit r child c), resolved r' x.1 = some x.2.dt := hsame
    rw [hps] at hsame' hok
    rw [htr] at hsame' hok
    have hmem_e : e ∈ pre' ++ e :: post' := by simp
    have he_dt : e.2.dt = T := by
      have h1 := hsame' e hmem_e
      rw [he, hp] at h1
      exact (Option.some.inj h1).symm
    have he_err : e.2.err = false := hok e hmem_e
    have he_eq : e = (p, ⟨T, false⟩) := by
      obtain ⟨e1, ⟨d, b⟩⟩ := e
      simp only at he he_dt he_err
      rw [he, he_dt, he_err]
    have hpre2 : ∀ x ∈ pre', x.2.err = true ∨ x.2.dt < T := by
      intro x hx
      right
      have hx1 : x.1 ∈ pre := by
        rw [← hpre']; exact List.mem_map_of_mem Prod.fst hx
      exact hpre x.1 hx1 x.2.dt (hsame' x (by simp [hx]))
    have hpost2 : ∀ x ∈ post', x.2.err = true ∨ x.2.dt ≤ T := by
      intro x hx
      right
      have hx1 : x.1 ∈ post := by
        rw [← hpost']; exact List.mem_map_of_mem Prod.fst hx
      exact hpost x.1 hx1 x.2.dt (hsame' x (by simp [hx]))
    rw [hps] at hloop
    rw [he_eq] at htr
    obtain ⟨en, ei⟩ := parentsLoop_first_max (addCommit fuel) c.Hash p T post' hpost2 pre' _ _
      _ _ _ _ _ hloop htr hpre2 hepoch
    rcases hcase with ⟨e', _⟩ | ⟨r3', n', i', e', _, er, eret⟩ | ⟨n', i', e', hnlt, _⟩
    · rw [eout] at e'; cases e'
    · rw [eout] at e'
      cases e'
      refine ⟨(r3.createChange (r.createCommitStruct c).2 n i).2, ?_, ei, ?_, ?_⟩
      · rw [er]
        simp [Repository.createChange, Repository.createCommitStruct, mapGet_mapSet]
      · show n + 1 = T + 1
        rw [en]
      · rw [eret, en]
    · rw [eout] at e'
      cases e'
      exact absurd (by rw [en]; exact hown) hnlt

/-- Witness of C6, amended: the merge M (10) of P1 and P2, both resolved at 300, is corrected
to 301 with the causing parent P1. -/
theorem first_newest_parent_is_recorded_witness :
    ∃ ch, mapGet mergeMResolved.changes (⟨3, 10, 10, [1, 2]⟩ : Commit).Hash = some ch ∧
      ch.from_ = 1 ∧ ch.new = 300 + 1 ∧ (⟨301, false⟩ : Ret) = ⟨300 + 1, false⟩ :=
  (first_newest_parent_is_recorded 4 (emptyRepository mergeM TypeDTAuthor) none
    ⟨3, 10, 10, [1, 2]⟩ [] [2] 1 300 (Inv_init _ _) (by unfold Closed; decide) (by decide)
    (by decide) (lt_of_le_of_lt (uncached_le_length _) (by decide)) rfl (by decide)
    (by decide)).2 mergeMResolved ⟨301, false⟩
    (addCommit_more_fuel (Nat.le_succ 3) addCommit_mergeM) (by decide) (by decide)
    (fun q hq => absurd hq (List.not_mem_nil q))
    (fun q hq t ht => by
      have hq2 : q = 2 := List.mem_singleton.1 hq
      subst hq2
      have h300 : resolved mergeMResolved 2 = some 300 := by decide
      rw [h300] at ht
      cases ht
      decide)

/-- C7 as stated fails on a commit (time 10) whose first parent cannot be read and whose
second parent (time 50) can: the call returns the epoch with an error, the second parent is
not resolved and the commit gets no Change although it is older than that parent. -/
theorem unreadable_parent_stops_resolution :
    ∃ r', addCommit 3 (emptyRepository brokenParent TypeDTAuthor) none ⟨3, 10, 10, [7, 2]⟩
        = some (r', ⟨epoch, true⟩) ∧
      CommitObject r'.git 7 = none ∧ CommitObject r'.git 2 = some ⟨2, 50, 50, []⟩ ∧
      mapGet r'.commits 2 = none ∧ mapGet r'.changes 3 = none ∧ (10 : Int) < 50 :=
  ⟨_, rfl, by decide, by decide, by decide, by decide, by decide⟩

/-- C7, amended: when a parent of a commit of the store that is not cached cannot be read,
`addCommit` on that commit, with enough fuel, returns the epoch sentinel together with an
error, leaves the Change entry of the commit as it was, and its outcome does not depend on the
parents listed after the unreadable one: they are not visited. -/
theorem unreadable_parent_aborts (fuel : Nat) (r : Repository) (child : Option plumbing.Hash)
    (c : Commit) (pre post : List plumbing.Hash) (p : plumbing.Hash)
    (hobj : CommitObject r.git c.Hash = some c) (hm : mapGet r.commits c.Hash = none)
    (hps : c.ParentHashes = pre ++ p :: post) (hp : CommitObject r.git p = none)
    (hfuel : uncached r < fuel) :
    ∃ r', addCommit fuel r child c = some (r', ⟨epoch, true⟩) ∧
      mapGet r'.changes c.Hash = mapGet r.changes c.Hash ∧
      ∀ post', addCommit fuel r child { c with ParentHashes := pre ++ p :: post' }
        = some (r', ⟨epoch, true⟩) := by
  obtain ⟨⟨r', ret⟩, hres⟩ := addCommit_total fuel r child c hobj hfuel
  cases fuel with
  | zero => simp [addCommit] at hres
  | succ fuel =>
    obtain ⟨out, hloop, hkeep, hcase⟩ := addCommit_uncached hm hres
    have hp2 : CommitObject (enterCommit r child c).git p = none := hp
    rw [hps] at hloop
    obtain ⟨r3, eout⟩ := (parentsLoop_unreadable (addCommit fuel) c.Hash (addCommit_post fuel)
      p post post pre _ epoch zeroHash hp2).2 out hloop
    rcases hcase with ⟨e, eret⟩ | ⟨r3', n', i', e, _⟩ | ⟨n', i', e, _⟩
    · rw [eout] at e
      cases e
      rw [eout] at hkeep
      refine ⟨r', by rw [hres, eret], hkeep, ?_⟩
      intro post'
      have hsame := (parentsLoop_unreadable (addCommit fuel) c.Hash (addCommit_post fuel)
        p post post' pre _ epoch zeroHash hp2).1
      rw [hloop, eout] at hsame
      have hloop' : parentsLoop (addCommit fuel) c.Hash (pre ++ p :: post')
          ((r.createCommitStruct c).1.addChild c.Hash child) epoch zeroHash
          = some (.abort r') := hsame.symm
      simp only [addCommit, hm, Repository.createCommitStruct, Repository.commitWhen]
      simp only [Repository.createCommitStruct, Repository.commitWhen] at hloop'
      rw [hloop']
    · rw [eout] at e; cases e
    · rw [eout] at e; cases e

/-- Witness of C7, amended: the commit 3 whose first parent 7 is not in the store. -/
theorem unreadable_parent_aborts_witness :
    ∃ r', addCommit 3 (emptyRepository brokenParent TypeDTAuthor) none ⟨3, 10, 10, [7, 2]⟩
        = some (r', ⟨epoch, true⟩) ∧
      mapGet r'.changes (⟨3, 10, 10, [7, 2]⟩ : Commit).Hash
        = mapGet (emptyRepository brokenParent TypeDTAuthor).changes
            (⟨3, 10, 10, [7, 2]⟩ : Commit).Hash ∧
      ∀ post', addCommit 3 (emptyRepository brokenParent TypeDTAuthor) none
          { (⟨3, 10, 10, [7, 2]⟩ : Commit) with ParentHashes := [] ++ 7 :: post' }
        = some (r', ⟨epoch, true⟩) :=
  unreadable_parent_aborts 3 (emptyRepository brokenParent TypeDTAuthor) none
    ⟨3, 10, 10, [7, 2]⟩ [] [2] 7 (by decide) (by decide) rfl (by decide)
    (lt_of_le_of_lt (uncached_le_length _) (by decide))

/-- C8 as stated fails on a root commit dated before the epoch: it has no ancestor, and
`addCommit` creates a Change for it and returns 1, not its own timestamp -5. -/
theorem old_root_without_ancestors_is_changed :
    ∃ r' ret, addCommit 2 (emptyRepository oldRoot TypeDTAuthor) none ⟨1, -5, -5, []⟩
        = some (r', ret) ∧
      (∀ a, ¬ Ancestor oldRoot a 1) ∧ mapGet r'.changes 1 ≠ none ∧ ret.dt ≠ -5 := by
  refine ⟨_, _, rfl, ?_, by decide, by decide⟩
  intro a ha
  have key : ∀ x y, Ancestor oldRoot x y → False := by
    intro x y hxy
    induction hxy with
    | parent hc hp =>
      have hmem := CommitObject_mem hc
      simp only [oldRoot, List.mem_singleton] at hmem
      subst hmem
      simp at hp
    | step _ _ ih _ => exact ih
  exact key a 1 ha

/-- C8, amended: for a commit of the store whose own timestamp is not before the epoch
sentinel, `addCommit` with enough fuel returns, and when the own timestamp is greater than or
equal to the resolved timestamp that every ancestor has after the call, the call makes no
Change for the commit and, provided that every parent of the commit can be read, returns the
own timestamp of the commit without error. -/
theorem no_change_when_not_older_than_ancestors (fuel : Nat) (r : Repository)
    (child : Option plumbing.Hash) (c : Commit) (hi : Inv r)
    (hobj : CommitObject r.git c.Hash = some c) (hfuel : uncached r < fuel)
    (hepoch : epoch ≤ r.commitWhen c) :
    (∃ res, addCommit fuel r child c = some res) ∧
    ∀ r' ret, addCommit fuel r child c = some (r', ret) →
      (∀ a, Ancestor r.git a c.Hash → ∀ t, resolved r' a = some t → t ≤ r.commitWhen c) →
      mapCount r'.changes c.Hash = mapCount r.changes c.Hash ∧
      ((∀ p ∈ c.ParentHashes, CommitObject r.git p ≠ none) →
        ret = ⟨r.commitWhen c, false⟩) := by
  refine ⟨addCommit_total fuel r child c hobj hfuel, ?_⟩
  intro r' ret hres hanc
  cases fuel with
  | zero => simp [addCommit] at hres
  | succ fuel =>
    cases hm : mapGet r.commits c.Hash with
    | some cs =>
      simp only [addCommit, hm, Option.some.injEq, Prod.mk.injEq] at hres
      obtain ⟨_, c', hc', hw⟩ := hi.node c.Hash cs hm
      rw [hobj] at hc'
      cases hc'
      refine ⟨by rw [← hres.1]; rfl, fun _ => ?_⟩
      rw [← hres.2, hw]
    | none =>
      have hno : mapGet r.changes c.Hash = none := hi.keys c.Hash hm
      have hcount : mapCount r.changes c.Hash = 0 := (mapGet_eq_none_iff _ _).1 hno
      obtain ⟨out, hloop, hkeep, hcase⟩ := addCommit_uncached hm hres
      rcases hcase with ⟨e, _⟩ | ⟨r3, n, i, e, hlt, er, _⟩ | ⟨n, i, e, _, eret⟩
      · rw [e] at hkeep
        have hk : mapGet r'.changes c.Hash = none := by
          rw [show mapGet r'.changes c.Hash = mapGet r.changes c.Hash from hkeep, hno]
        refine ⟨by rw [hcount]; exact (mapGet_eq_none_iff _ _).1 hk, fun hread => ?_⟩
        obtain ⟨_, _, _, e'⟩ := parentsLoop_done_of_readable (addCommit fuel) c.Hash
          (addCommit_post fuel) _ _ _ _ out hloop hread
        rw [e] at e'
        cases e'
      · exfalso
        obtain ⟨_, _, hI⟩ := addCommit_post (fuel + 1) r child c r' ret hobj hres
        obtain ⟨hi', _, _⟩ := hI hi
        have hi2 : Inv (enterCommit r child c) :=
          Inv_addChild (Inv_createCommitStruct hi c hobj hm) _ _
        obtain ⟨_, hI3⟩ := parentsLoop_post (addCommit fuel) c.Hash (addCommit_post fuel)
          _ _ _ _ out hloop
        obtain ⟨_, hT, _⟩ := hI3 hi2
        rcases hT r3 n i e with ⟨e1, _⟩ | ⟨hmem, _, hret⟩
        · omega
        · have hn3 : mapGet r3.changes (r.createCommitStruct c).2.id = none := by
            rw [e] at hkeep
            exact hkeep.trans hno
          have hret' : Returned r' i n := by
            rw [er]
            exact Returned_createChange hret _ n i hn3
          obtain ⟨t', ht', hle⟩ := hret'.le_resolved hi'
          have := hanc i (Ancestor.parent hobj hmem) t' ht'
          omega
      · rw [e] at hkeep
        have hk : mapGet r'.changes c.Hash = none := by
          rw [show mapGet r'.changes c.Hash = mapGet r.changes c.Hash from hkeep, hno]
        exact ⟨by rw [hcount]; exact (mapGet_eq_none_iff _ _).1 hk, fun _ => eret⟩

theorem addCommit_orderedPair :
    addCommit 3 (emptyRepository orderedPair TypeDTAuthor) none ⟨2, 100, 100, [1]⟩
      = some (orderedPairResolved, ⟨100, false⟩) := rfl

/-- Witness of C8, amended: the commit of time 100 whose only ancestor is resolved at 50 gets
no Change and its own timestamp is returned. -/
theorem no_change_when_not_older_than_ancestors_witness :
    mapCount orderedPairResolved.changes (⟨2, 100, 100, [1]⟩ : Commit).Hash
        = mapCount (emptyRepository orderedPair TypeDTAuthor).changes
            (⟨2, 100, 100, [1]⟩ : Commit).Hash ∧
      ((∀ p ∈ (⟨2, 100, 100, [1]⟩ : Commit).ParentHashes,
          CommitObject (emptyRepository orderedPair TypeDTAuthor).git p ≠ none) →
        (⟨100, false⟩ : Ret)
          = ⟨(emptyRepository orderedPair TypeDTAuthor).commitWhen ⟨2, 100, 100, [1]⟩, false⟩) :=
  (no_change_when_not_older_than_ancestors 3 (emptyRepository orderedPair TypeDTAuthor) none
    ⟨2, 100, 100, [1]⟩ (Inv_init _ _) (by decide)
    (lt_of_le_of_lt (uncached_le_length _) (by decide)) (by decide)).2
    orderedPairResolved ⟨100, false⟩ addCommit_orderedPair
    (fun a ha t ht => by
      obtain ⟨e, _⟩ := Ancestor_orderedPair ha
      subst e
      have h50 : resolved orderedPairResolved 1 = some 50 := by decide
      rw [h50] at ht
      cases ht
      decide)

/-- C9: for every root commit (empty `ParentHashes`) whose timestamp is after the epoch
sentinel, `addCommit` returns the own timestamp of the commit without error and leaves the
Change set as it was, whether the commit is already cached (with its own timestamp) or not. -/
theorem root_after_epoch_unchanged (fuel : Nat) (r : Repository)
    (child : Option plumbing.Hash) (c : Commit) (hroot : c.ParentHashes = [])
    (hafter : epoch < r.commitWhen c)
    (hcache : ∀ cs, mapGet r.commits c.Hash = some cs → cs.when = r.commitWhen c) :
    ∃ r', addCommit (fuel + 1) r child c = some (r', ⟨r.commitWhen c, false⟩) ∧
      r'.changes = r.changes := by
  cases hm : mapGet r.commits c.Hash with
  | some cs =>
    refine ⟨r.addChild c.Hash child, ?_, rfl⟩
    simp only [addCommit, hm, hcache cs hm]
  | none =>
    refine ⟨enterCommit r child c, ?_, rfl⟩
    have hnot : ¬ (r.createCommitStruct c).2.when < epoch := by
      show ¬ r.commitWhen c < epoch
      omega
    simp only [addCommit, hm, hroot, parentsLoop, hnot, if_false]
    rfl

/-- Witness of C9: the root A (time 100) of the chain A, B, from the empty cache. -/
theorem root_after_epoch_unchanged_witness :
    ∃ r', addCommit (2 + 1) (emptyRepository chainAB TypeDTAuthor) none ⟨1, 100, 100, []⟩
        = some (r', ⟨(emptyRepository chainAB TypeDTAuthor).commitWhen ⟨1, 100, 100, []⟩,
            false⟩) ∧
      r'.changes = (emptyRepository chainAB TypeDTAuthor).changes :=
  root_after_epoch_unchanged 2 (emptyRepository chainAB TypeDTAuthor) none ⟨1, 100, 100, []⟩
    rfl (by decide) (by decide)

/-- C10 as stated fails on a root commit dated before the epoch: the causing parent of its
Change is the zero hash, which is not in its empty parent list. -/
theorem causing_parent_not_a_parent :
    ∃ r ch, OpenRepository 2 (some oldRoot4) oldRoot4 TypeDTAuthor = some (some r) ∧
      CommitObject r.git 4 = some ⟨4, -3, -3, []⟩ ∧
      mapGet r.changes 4 = some ch ∧ ch.from_ ∉ ([] : List plumbing.Hash) :=
  ⟨_, _, rfl, by decide, rfl, by simp⟩

/-- C10, amended: after the traversal, every Change belongs to a commit of the store and has
its own timestamp as original time; for every Change but those made against the epoch
sentinel itself, whose corrected time is one second after the epoch, the causing parent is
one of the ids of the parent list of the commit, and the time that the resolution of that
parent handed back, which is the corrected time less one second and is the own timestamp of
the parent or the corrected time of the parent, is strictly greater than the own timestamp of
the commit. A Change made against the sentinel belongs to a commit dated before the epoch and
has the zero hash as causing parent. -/
theorem causing_parent_is_a_newer_parent (fuel : Nat) (store it : List Commit)
    (typedt : TypeDateTime) (htype : typedt = TypeDTAuthor ∨ typedt = TypeDTCommitter)
    (hit : ∀ c ∈ it, CommitObject store c.Hash = some c) (hfuel : store.length < fuel) :
    ∃ r, OpenRepository fuel (some store) it typedt = some (some r) ∧
      ∀ h ch, mapGet r.changes h = some ch →
        ∃ c, CommitObject store h = some c ∧ ch.when = r.commitWhen c ∧
          (ch.new ≠ epoch + 1 →
            ch.from_ ∈ c.ParentHashes ∧ ch.when < ch.new - 1 ∧
            Returned r ch.from_ (ch.new - 1)) ∧
          (ch.new = epoch + 1 → ch.when < epoch ∧ ch.from_ = zeroHash) := by
  obtain ⟨r, hr, hgit, _, hi, _, _⟩ := OpenRepository_post fuel store it typedt htype hit hfuel
  refine ⟨r, hr, ?_⟩
  intro h ch hch
  obtain ⟨_, _, cs, c, hcs, hc, hw, hor⟩ := hi.change h ch hch
  obtain ⟨_, c', hc', hw'⟩ := hi.node h cs hcs
  rw [hc] at hc'
  cases hc'
  refine ⟨c, by rw [← hgit]; exact hc, hw.trans hw', ?_, ?_⟩
  · intro hne
    rcases hor with ⟨h1, _, _⟩ | ⟨h1, _, h3, h4⟩
    · exact absurd h1 hne
    · exact ⟨h1, h3, h4⟩
  · intro he
    rcases hor with ⟨_, h2, h3⟩ | ⟨_, h2, _, _⟩
    · exact ⟨h3, h2⟩
    · omega

/-- Witness of C10, amended: the commit B dated before the epoch with the parent A (100),
enumerated as B, A: the Change of B has the causing parent A and the corrected time 101. -/
theorem causing_parent_is_a_newer_parent_witness :
    ∃ r, OpenRepository 3 (some oldChild) [⟨2, -5, -5, [1]⟩, ⟨1, 100, 100, []⟩] TypeDTAuthor
        = some (some r) ∧
      ∀ h ch, mapGet r.changes h = some ch →
        ∃ c, CommitObject oldChild h = some c ∧ ch.when = r.commitWhen c ∧
          (ch.new ≠ epoch + 1 →
            ch.from_ ∈ c.ParentHashes ∧ ch.when < ch.new - 1 ∧
            Returned r ch.from_ (ch.new - 1)) ∧
          (ch.new = epoch + 1 → ch.when < epoch ∧ ch.from_ = zeroHash) :=
  causing_parent_is_a_newer_parent 3 oldChild [⟨2, -5, -5, [1]⟩, ⟨1, 100, 100, []⟩]
    TypeDTAuthor (Or.inl rfl) (by decide) (by decide)

/-- C11, evaluated on the chain A (100), B (50), C (90): enumerated as A, B, C the traversal
records Change(B) with original 50, corrected 101 and causing parent A, and no Change for C;
enumerated as C, B, A it records Change(C) with original 90, corrected 102 and causing
parent B as well. -/
theorem chain_in_order_misses_change_of_C :
    ∃ r r', OpenRepository 4 (some chainABC) chainABC TypeDTAuthor = some (some r) ∧
      mapGet r.changes 2 = some ⟨2, 50, 101, 1⟩ ∧ mapGet r.changes 3 = none ∧
      OpenRepository 4 (some chainABC)
        [⟨3, 90, 90, [2]⟩, ⟨2, 50, 50, [1]⟩, ⟨1, 100, 100, []⟩] TypeDTAuthor
        = some (some r') ∧
      mapGet r'.changes 2 = some ⟨2, 50, 101, 1⟩ ∧
      mapGet r'.changes 3 = some ⟨3, 90, 102, 2⟩ :=
  ⟨_, _, rfl, by decide, by decide, rfl, by decide, by decide⟩

/-- C12: after any sequence of `addCommit` calls on commits of the store, started from the
empty cache with enough fuel, every commit id has been assigned at most once in `r.commits`
(one `createCommitStruct` at most) and at most once in `r.changes` (one `createChange` at
most, so no entry is overwritten), and every key of `r.changes` is a key of `r.commits`. -/
theorem nodes_and_changes_created_once (fuel : Nat) (store : List Commit)
    (typedt : TypeDateTime) (calls : List (Option plumbing.Hash × Commit))
    (hcalls : ∀ x ∈ calls, CommitObject store x.2.Hash = some x.2)
    (hfuel : store.length < fuel) :
    ∃ r, addCommits fuel calls (emptyRepository store typedt) = some r ∧
      ∀ h, mapCount r.commits h ≤ 1 ∧ mapCount r.changes h ≤ 1 ∧
        (mapGet r.changes h ≠ none → mapGet r.commits h ≠ none) := by
  obtain ⟨r, hr, _, hI⟩ := addCommits_post fuel calls (emptyRepository store typedt)
    hcalls hfuel
  have hi := hI (Inv_init store typedt)
  refine ⟨r, hr, fun h => ⟨hi.nodeOnce h, hi.changeOnce h, fun hch hno => hch (hi.keys h hno)⟩⟩

/-- Witness of C12: the chain A, B, C with the calls on B, on C, on B again and on A. -/
theorem nodes_and_changes_created_once_witness :
    ∃ r, addCommits 4 [(none, ⟨2, 50, 50, [1]⟩), (none, ⟨3, 90, 90, [2]⟩),
          (some 3, ⟨2, 50, 50, [1]⟩), (none, ⟨1, 100, 100, []⟩)]
        (emptyRepository chainABC TypeDTAuthor) = some r ∧
      ∀ h, mapCount r.commits h ≤ 1 ∧ mapCount r.changes h ≤ 1 ∧
        (mapGet r.changes h ≠ none → mapGet r.commits h ≠ none) :=
  nodes_and_changes_created_once 4 chainABC TypeDTAuthor _ (by decide) (by decide)

/-- C13, evaluated: `TypeOutErrors` and `TypeOutLong` are the same value 1, so `getOutputType`
maps "errors" and "long" to the same mode and `PrintOutput(TypeOutErrors)` is the call
`PrintOutput(TypeOutLong)`, which prints the long Change report. -/
theorem errors_mode_is_long_mode :
    TypeOutErrors = TypeOutLong ∧ TypeOutShort ≠ TypeOutLong ∧
      getOutputType "errors" = getOutputType "long" ∧
      ∀ r : Repository, r.PrintOutput TypeOutErrors = r.PrintOutput TypeOutLong ∧
        (r.PrintOutput TypeOutErrors = .panic ∨
          ∃ entries, r.PrintOutput TypeOutErrors = .printed (.long entries)) := by
  refine ⟨rfl, by decide, by decide, fun r => ⟨rfl, ?_⟩⟩
  have h1 : ¬ TypeOutErrors = TypeOutShort := by decide
  have h2 : TypeOutErrors = TypeOutLong := rfl
  simp only [Repository.PrintOutput, h1, h2, if_false, if_true]
  cases r.printOutputLong with
  | none => exact Or.inl rfl
  | some entries => exact Or.inr ⟨entries, rfl⟩

/-- C14, evaluated on a store with one root commit dated before the epoch: its Change has the
zero hash as causing parent, which has no Change and is not an object of the store. The long
report does not render the own time of the parent: both errors of `CommitObject` are dropped,
the block reads through a nil commit object and `PrintOutput` panics. -/
theorem long_report_panics_on_zero_hash_parent :
    ∃ r ch, OpenRepository 2 (some oldRoot) oldRoot TypeDTAuthor = some (some r) ∧
      mapGet r.changes 1 = some ch ∧ ch.from_ = zeroHash ∧
      mapGet r.changes ch.from_ = none ∧ CommitObject r.git ch.from_ = none ∧
      r.longEntry ch = none ∧ r.PrintOutput TypeOutLong = .panic :=
  ⟨_, _, rfl, rfl, rfl, by decide, by decide, by decide, by decide⟩

/-- The block of the long report for a Change whose commit and causing parent are objects of
the store: it carries the original and the changed time of the Change, and the 'current' time
of the causing parent is the corrected time of the parent together with the id of the
parent's own causing parent if and only if the causing parent has an entry in the Change set;
otherwise it is the own time of the parent, the author time in author mode and the committer
time in the other mode. -/
theorem long_report_current_time (r : Repository) (ch : changeStruct)
    (obj parentObj : Commit) (hobj : CommitObject r.git ch.id = some obj)
    (hfrom : CommitObject r.git ch.from_ = some parentObj) :
    ∃ e, r.longEntry ch = some e ∧ e.commit = ch.id ∧ e.parent = ch.from_ ∧
      e.original = ch.when ∧ e.changed = ch.new ∧
      (∀ cf, mapGet r.changes ch.from_ = some cf → e.current = .changedBy cf.new cf.from_) ∧
      (mapGet r.changes ch.from_ = none →
        e.current = .own (if r.typeDT = TypeDTAuthor then parentObj.AuthorWhen
          else parentObj.CommitterWhen)) ∧
      ((∃ n s, e.current = .changedBy n s) ↔ mapGet r.changes ch.from_ ≠ none) := by
  have h1 := CommitObject_hash hobj
  have h2 := CommitObject_hash hfrom
  have hmode : (if TypeDTAuthor = r.typeDT then parentObj.AuthorWhen
      else parentObj.CommitterWhen)
      = (if r.typeDT = TypeDTAuthor then parentObj.AuthorWhen else parentObj.CommitterWhen) := by
    by_cases h : r.typeDT = TypeDTAuthor
    · simp [h]
    · have h' : ¬ TypeDTAuthor = r.typeDT := fun x => h x.symm
      simp [h, h']
  cases hch : mapGet r.changes ch.from_ with
  | some cf =>
    refine ⟨{ commit := obj.Hash, original := ch.when, changed := ch.new,
              parent := parentObj.Hash, current := .changedBy cf.new cf.from_ }, ?_, h1, h2,
      rfl, rfl, ?_, ?_, ?_⟩
    · simp [Repository.longEntry, hobj, hfrom, hch]
    · intro cf' e
      cases e
      rfl
    · intro e
      cases e
    · exact ⟨fun _ => by simp, fun _ => ⟨_, _, rfl⟩⟩
  | none =>
    refine ⟨{ commit := obj.Hash, original := ch.when, changed := ch.new,
              parent := parentObj.Hash,
              current := .own (if TypeDTAuthor = r.typeDT then parentObj.AuthorWhen
                else parentObj.CommitterWhen) }, ?_, h1, h2, rfl, rfl, ?_, ?_, ?_⟩
    · simp [Repository.longEntry, hobj, hfrom, hch]
    · intro cf' e
      cases e
    · intro _
      show ModifiedDT.own _ = ModifiedDT.own _
      rw [hmode]
    · constructor
      · rintro ⟨n, s, e⟩
        cases e
      · intro h
        exact absurd rfl h

theorem OpenRepository_chainABC_reversed :
    OpenRepository 4 (some chainABC)
      [⟨3, 90, 90, [2]⟩, ⟨2, 50, 50, [1]⟩, ⟨1, 100, 100, []⟩] TypeDTAuthor
      = some (some chainABCTraversed) := rfl

/-- The block of the Change of C in the chain A, B, C, whose causing parent B has a Change of
its own. -/
theorem long_report_current_time_chainABC :
    ∃ e, chainABCTraversed.longEntry ⟨3, 90, 102, 2⟩ = some e ∧
      e.commit = (⟨3, 90, 102, 2⟩ : changeStruct).id ∧
      e.parent = (⟨3, 90, 102, 2⟩ : changeStruct).from_ ∧
      e.original = (⟨3, 90, 102, 2⟩ : changeStruct).when ∧
      e.changed = (⟨3, 90, 102, 2⟩ : changeStruct).new ∧
      (∀ cf, mapGet chainABCTraversed.changes (⟨3, 90, 102, 2⟩ : changeStruct).from_ = some cf →
        e.current = .changedBy cf.new cf.from_) ∧
      (mapGet chainABCTraversed.changes (⟨3, 90, 102, 2⟩ : changeStruct).from_ = none →
        e.current = .own (if chainABCTraversed.typeDT = TypeDTAuthor
          then (⟨2, 50, 50, [1]⟩ : Commit).AuthorWhen
          else (⟨2, 50, 50, [1]⟩ : Commit).CommitterWhen)) ∧
      ((∃ n s, e.current = .changedBy n s) ↔
        mapGet chainABCTraversed.changes (⟨3, 90, 102, 2⟩ : changeStruct).from_ ≠ none) :=
  long_report_current_time chainABCTraversed ⟨3, 90, 102, 2⟩ ⟨3, 90, 90, [2]⟩
    ⟨2, 50, 50, [1]⟩ (by decide) (by decide)

/-- C15 as stated fails for the report mode: with `--type author` and the unsupported
`--output bogus` the program exits with code 1 only after `OpenRepository` has run the
traversal, which has cached both commits of the chain A, B. -/
theorem unsupported_output_found_after_traversal :
    ∃ r, main 3 (some chainAB) chainAB "repo" "author" "bogus"
        = some { code := 1, traversal := some r, output := none } ∧
      getOutputType "bogus" = none ∧ r.commits.length = 2 :=
  ⟨_, rfl, by decide, by decide⟩

/-- C15, amended: an unsupported `--type` value (one whose lower case is neither "author" nor
"committer") makes the program exit with code 1 before `OpenRepository` is called, and
`OpenRepository` returns an error without any traversal for a type other than `TypeDTAuthor`
and `TypeDTCommitter`. An unsupported `--output` value (one whose lower case is none of
"short", "long", "errors") is fatal as well, but it is found after the traversal: with a
supported `--type`, a repository that opens and enough fuel, the program exits with code 1
and without a report after `OpenRepository` has cached every enumerated commit. -/
theorem configuration_errors_are_fatal (fuel : Nat) (store it : List Commit)
    (pathRepository dttype outtype : String) :
    (strings.ToLower dttype ≠ "author" → strings.ToLower dttype ≠ "committer" →
      ∀ git, main fuel git it pathRepository dttype outtype
        = some { code := 1, traversal := none, output := none }) ∧
    (∀ git typedt, typedt ≠ TypeDTAuthor → typedt ≠ TypeDTCommitter →
      OpenRepository fuel git it typedt = some none) ∧
    (strings.ToLower outtype ≠ "short" → strings.ToLower outtype ≠ "long" →
      strings.ToLower outtype ≠ "errors" → pathRepository ≠ "" →
      (strings.ToLower dttype = "author" ∨ strings.ToLower dttype = "committer") →
      (∀ c ∈ it, CommitObject store c.Hash = some c) → store.length < fuel →
      ∃ r, main fuel (some store) it pathRepository dttype outtype
          = some { code := 1, traversal := some r, output := none } ∧
        (∀ c ∈ it, mapGet r.commits c.Hash ≠ none) ∧
        ∃ typedt, getDTType dttype = some typedt ∧
          OpenRepository fuel (some store) it typedt = some (some r)) := by
  refine ⟨?_, ?_, ?_⟩
  · intro h1 h2 git
    have hn : getDTType dttype = none := by simp [getDTType, h1, h2]
    simp only [main, hn]
    split <;> rfl
  · intro git typedt h1 h2
    simp [OpenRepository, h1, h2]
  · intro h1 h2 h3 hp hmode hit hfuel
    have hn : getOutputType outtype = none := by simp [getOutputType, h1, h2, h3]
    have htype : ∃ typedt, getDTType dttype = some typedt ∧
        (typedt = TypeDTAuthor ∨ typedt = TypeDTCommitter) := by
      rcases hmode with e | e
      · exact ⟨TypeDTAuthor, by simp [getDTType, e], Or.inl rfl⟩
      · exact ⟨TypeDTCommitter, by simp [getDTType, e], Or.inr rfl⟩
    obtain ⟨typedt, hget, hor⟩ := htype
    obtain ⟨r, hr, _, _, _, hC, _⟩ := OpenRepository_post fuel store it typedt hor hit hfuel
    refine ⟨r, ?_, hC, typedt, hget, hr⟩
    simp only [main, hp, if_false, hget, hr, hn]

/-- Witness of C15, amended: `--type mtime`, and `--type author --output bogus`, on the
chain A, B. -/
theorem configuration_errors_are_fatal_witness :
    main 3 (some chainAB) chainAB "repo" "mtime" "short"
        = some { code := 1, traversal := none, output := none } ∧
      ∃ r, main 3 (some chainAB) chainAB "repo" "author" "bogus"
          = some { code := 1, traversal := some r, output := none } ∧
        (∀ c ∈ chainAB, mapGet r.commits c.Hash ≠ none) ∧
        ∃ typedt, getDTType "author" = some typedt ∧
          OpenRepository 3 (some chainAB) chainAB typedt = some (some r) :=
  ⟨(configuration_errors_are_fatal 3 chainAB chainAB "repo" "mtime" "short").1
      (by decide) (by decide) (some chainAB),
    (configuration_errors_are_fatal 3 chainAB chainAB "repo" "author" "bogus").2.2
      (by decide) (by decide) (by decide) (by decide) (Or.inl (by decide)) (by decide)
      (by decide)⟩

/-- C16: when the value of `--type` is "author" or "committer" in any letter case,
`getDTType` returns `TypeDTAuthor` for the first and `TypeDTCommitter` for the second, and
after the traversal with that mode every enumerated commit is cached and the timestamp `when`
of every node of the cache is the author time of its commit in the first case and the
committer time of its commit in the second: one source for all the commits of the run. -/
theorem when_is_time_of_configured_source (fuel : Nat) (store it : List Commit)
    (dttype : String)
    (hmode : strings.ToLower dttype = "author" ∨ strings.ToLower dttype = "committer")
    (hit : ∀ c ∈ it, CommitObject store c.Hash = some c) (hfuel : store.length < fuel) :
    ∃ typedt r, getDTType dttype = some typedt ∧
      typedt = (if strings.ToLower dttype = "author" then TypeDTAuthor else TypeDTCommitter) ∧
      OpenRepository fuel (some store) it typedt = some (some r) ∧
      (∀ c ∈ it, mapGet r.commits c.Hash ≠ none) ∧
      ∀ h cs, mapGet r.commits h = some cs →
        ∃ c, CommitObject store h = some c ∧
          cs.when = (if strings.ToLower dttype = "author" then c.AuthorWhen
            else c.CommitterWhen) := by
  have htype : ∃ typedt, getDTType dttype = some typedt ∧
      typedt = (if strings.ToLower dttype = "author" then TypeDTAuthor else TypeDTCommitter) ∧
      (typedt = TypeDTAuthor ∨ typedt = TypeDTCommitter) ∧
      (typedt = TypeDTAuthor ↔ strings.ToLower dttype = "author") := by
    rcases hmode with e | e
    · exact ⟨TypeDTAuthor, by simp [getDTType, e], by simp [e], Or.inl rfl, by simp [e]⟩
    · have hne : strings.ToLower dttype ≠ "author" := by rw [e]; decide
      refine ⟨TypeDTCommitter, by simp [getDTType, e], by simp [e], Or.inr rfl, ?_⟩
      constructor
      · intro h; exact absurd h (by decide)
      · intro h; exact absurd h hne
  obtain ⟨typedt, hget, hval, hor, hiff⟩ := htype
  obtain ⟨r, hr, hgit, htd, hi, hC, _⟩ :=
    OpenRepository_post fuel store it typedt hor hit hfuel
  refine ⟨typedt, r, hget, hval, hr, hC, ?_⟩
  intro h cs hcs
  obtain ⟨_, c, hc, hw⟩ := hi.node h cs hcs
  refine ⟨c, by rw [← hgit]; exact hc, ?_⟩
  rw [hw]
  simp only [Repository.commitWhen, htd]
  by_cases ha : strings.ToLower dttype = "author"
  · simp [ha, hiff.2 ha]
  · have : ¬ typedt = TypeDTAuthor := fun x => ha (hiff.1 x)
    simp [ha, this]

/-- Witness of C16: `--type CoMMitter` on a store whose commit has different author and
committer times. -/
theorem when_is_time_of_configured_source_witness :
    ∃ typedt r, getDTType "CoMMitter" = some typedt ∧
      typedt = (if strings.ToLower "CoMMitter" = "author" then TypeDTAuthor
        else TypeDTCommitter) ∧
      OpenRepository 2 (some [⟨1, 10, 20, []⟩]) [⟨1, 10, 20, []⟩] typedt = some (some r) ∧
      (∀ c ∈ [(⟨1, 10, 20, []⟩ : Commit)], mapGet r.commits c.Hash ≠ none) ∧
      ∀ h cs, mapGet r.commits h = some cs →
        ∃ c, CommitObject [⟨1, 10, 20, []⟩] h = some c ∧
          cs.when = (if strings.ToLower "CoMMitter" = "author" then c.AuthorWhen
            else c.CommitterWhen) :=
  when_is_time_of_configured_source 2 [⟨1, 10, 20, []⟩] [⟨1, 10, 20, []⟩] "CoMMitter"
    (Or.inr (by decide)) (by decide) (by decide)

/-- C17: after any sequence of `addCommit` calls on commits of the store, started from the
empty cache with enough fuel, and one more call on a commit of the store, a hash for which
`CommitObject` fails is a key neither of `r.commits` nor of `r.changes`; and when that last
call returns an error (it hit the read error of a parent), there is no Change for the commit
it was resolving. -/
theorem unread_commit_is_never_cached (fuel : Nat) (store : List Commit)
    (typedt : TypeDateTime) (calls : List (Option plumbing.Hash × Commit))
    (child : Option plumbing.Hash) (c : Commit)
    (hcalls : ∀ x ∈ calls, CommitObject store x.2.Hash = some x.2)
    (hobj : CommitObject store c.Hash = some c) (hfuel : store.length < fuel) :
    ∃ r r' ret, addCommits fuel calls (emptyRepository store typedt) = some r ∧
      addCommit fuel r child c = some (r', ret) ∧
      (∀ h, CommitObject store h = none →
        mapGet r'.commits h = none ∧ mapGet r'.changes h = none) ∧
      (ret.err = true → mapGet r'.changes c.Hash = none ∧ mapCount r'.changes c.Hash = 0) := by
  obtain ⟨r, hr, hE, hI⟩ := addCommits_post fuel calls (emptyRepository store typedt)
    hcalls hfuel
  have hi := hI (Inv_init store typedt)
  have hgit : r.git = store := hE.1
  have hobj' : CommitObject r.git c.Hash = some c := by rw [hgit]; exact hobj
  obtain ⟨⟨r', ret⟩, hres⟩ := addCommit_total fuel r child c hobj'
    (lt_of_le_of_lt (uncached_le_length r) (by rw [hgit]; exact hfuel))
  obtain ⟨hE', _, hI'⟩ := addCommit_post fuel r child c r' ret hobj' hres
  obtain ⟨hi', _, _⟩ := hI' hi
  refine ⟨r, r', ret, hr, hres, ?_, ?_⟩
  · intro h hnone
    have hc : mapGet r'.commits h = none := by
      cases hm : mapGet r'.commits h with
      | none => rfl
      | some cs =>
        obtain ⟨_, c', hc', _⟩ := hi'.node h cs hm
        rw [hE'.1, hgit, hnone] at hc'
        cases hc'
    exact ⟨hc, hi'.keys h hc⟩
  · intro herr
    cases fuel with
    | zero => simp [addCommit] at hres
    | succ fuel =>
      cases hm : mapGet r.commits c.Hash with
      | some cs =>
        simp only [addCommit, hm, Option.some.injEq, Prod.mk.injEq] at hres
        rw [← hres.2] at herr
        cases herr
      | none =>
        obtain ⟨out, _, hkeep, hcase⟩ := addCommit_uncached hm hres
        have hno : mapGet r.changes c.Hash = none := hi.keys c.Hash hm
        rcases hcase with ⟨e, _⟩ | ⟨_, n, _, _, _, _, eret⟩ | ⟨_, _, _, _, eret⟩
        · rw [e] at hkeep
          have hk : mapGet r'.changes c.Hash = none := hkeep.trans hno
          exact ⟨hk, (mapGet_eq_none_iff _ _).1 hk⟩
        · rw [eret] at herr; cases herr
        · rw [eret] at herr; cases herr

/-- Witness of C17: the commit 3 whose first parent 7 is not in the store. -/
theorem unread_commit_is_never_cached_witness :
    ∃ r r' ret, addCommits 3 [] (emptyRepository brokenParent TypeDTAuthor) = some r ∧
      addCommit 3 r none ⟨3, 10, 10, [7, 2]⟩ = some (r', ret) ∧
      (∀ h, CommitObject brokenParent h = none →
        mapGet r'.commits h = none ∧ mapGet r'.changes h = none) ∧
      (ret.err = true →
        mapGet r'.changes (⟨3, 10, 10, [7, 2]⟩ : Commit).Hash = none ∧
        mapCount r'.changes (⟨3, 10, 10, [7, 2]⟩ : Commit).Hash = 0) :=
  unread_commit_is_never_cached 3 brokenParent TypeDTAuthor [] none ⟨3, 10, 10, [7, 2]⟩
    (by decide) (by decide) (by decide)

/-- C18: `addChild` appends the id of a non-nil child that is not yet among the children,
returns the node as it is for a child that is already present and for nil, gives the same
node when it is repeated with the same child, and leaves `id`, `when` and `parents` alone;
after the call a non-nil child is among the children. -/
theorem addChild_registers_child_once (c : commitStruct) (cid : plumbing.Hash) :
    (cid ∉ c.children → (c.addChild (some cid)).children = c.children ++ [cid]) ∧
    (cid ∈ c.children → c.addChild (some cid) = c) ∧
    c.addChild none = c ∧
    cid ∈ (c.addChild (some cid)).children ∧
    (∀ cs, (c.addChild cs).addChild cs = c.addChild cs) ∧
    (∀ cs, (c.addChild cs).id = c.id ∧ (c.addChild cs).when = c.when ∧
      (c.addChild cs).parents = c.parents) := by
  refine ⟨?_, ?_, rfl, ?_, ?_, ?_⟩
  · intro h
    simp [commitStruct.addChild, h]
  · intro h
    simp [commitStruct.addChild, h]
  · by_cases h : cid ∈ c.children <;> simp [commitStruct.addChild, h]
  · intro cs
    cases cs with
    | none => rfl
    | some x =>
      by_cases h : x ∈ c.children <;> simp [commitStruct.addChild, h]
  · intro cs
    cases cs with
    | none => exact ⟨rfl, rfl, rfl⟩
    | some x =>
      by_cases h : x ∈ c.children <;> simp [commitStruct.addChild, h]

/-- Witness of C18: the child 3 on a node whose children are 2, and the child 2 on the same
node. -/
theorem addChild_registers_child_once_witness :
    ((⟨1, 100, [2], []⟩ : commitStruct).addChild (some 3)).children = [2] ++ [3] ∧
      (⟨1, 100, [2], []⟩ : commitStruct).addChild (some 2) = ⟨1, 100, [2], []⟩ :=
  ⟨(addChild_registers_child_once ⟨1, 100, [2], []⟩ 3).1 (by decide),
    (addChild_registers_child_once ⟨1, 100, [2], []⟩ 2).2.1 (by decide)⟩

/-- C19: for every store, cyclic or not, a call of `addCommit` on a commit of the store with
more fuel than the store has uncached hashes returns, and returns the same with any larger
fuel. A call on a commit that is not cached adds a node to the cache, the number of nodes a
call adds is at most the number of hashes of the store that were not cached, and that number
is at most the number of distinct hashes of the store. -/
theorem addCommit_terminates (fuel : Nat) (r : Repository) (child : Option plumbing.Hash)
    (c : Commit) (hobj : CommitObject r.git c.Hash = some c) (hfuel : uncached r < fuel) :
    ∃ r' ret, addCommit fuel r child c = some (r', ret) ∧
      (∀ fuel', fuel ≤ fuel' → addCommit fuel' r child c = some (r', ret)) ∧
      (mapGet r.commits c.Hash = none → r.commits.length < r'.commits.length) ∧
      r'.commits.length ≤ r.commits.length + uncached r ∧
      uncached r ≤ (r.git.map (fun x => x.Hash)).toFinset.card := by
  obtain ⟨⟨r', ret⟩, hres⟩ := addCommit_total fuel r child c hobj hfuel
  obtain ⟨hb, hgrow⟩ := addCommit_nodes fuel r child c r' ret hobj hres
  refine ⟨r', ret, hres, fun fuel' hle => addCommit_more_fuel hle hres, hgrow, ?_, ?_⟩
  · have := hb.2
    omega
  · exact Finset.card_filter_le _ _

/-- Witness of C19: two commits that are each the parent of the other, from the empty
cache. -/
theorem addCommit_terminates_witness :
    ∃ r' ret, addCommit 3 (emptyRepository cyclicPair TypeDTAuthor) none ⟨1, 100, 100, [2]⟩
        = some (r', ret) ∧
      (∀ fuel', 3 ≤ fuel' → addCommit fuel' (emptyRepository cyclicPair TypeDTAuthor) none
        ⟨1, 100, 100, [2]⟩ = some (r', ret)) ∧
      (mapGet (emptyRepository cyclicPair TypeDTAuthor).commits
          (⟨1, 100, 100, [2]⟩ : Commit).Hash = none →
        (emptyRepository cyclicPair TypeDTAuthor).commits.length < r'.commits.length) ∧
      r'.commits.length ≤ (emptyRepository cyclicPair TypeDTAuthor).commits.length
        + uncached (emptyRepository cyclicPair TypeDTAuthor) ∧
      uncached (emptyRepository cyclicPair TypeDTAuthor)
        ≤ ((emptyRepository cyclicPair TypeDTAuthor).git.map (fun x => x.Hash)).toFinset.card :=
  addCommit_terminates 3 (emptyRepository cyclicPair TypeDTAuthor) none ⟨1, 100, 100, [2]⟩
    (by decide) (lt_of_le_of_lt (uncached_le_length _) (by decide))

/-- C20, evaluated on the chain A (100), B (50), C (90): the enumeration C, B, A yields a
Change set with Change(C) (corrected 102, causing parent B), the enumeration A, B, C of the
same commits yields a Change set without any Change for C. -/
theorem change_set_depends_on_enumeration :
    ∃ r1 r2, OpenRepository 4 (some chainABC)
        [⟨3, 90, 90, [2]⟩, ⟨2, 50, 50, [1]⟩, ⟨1, 100, 100, []⟩] TypeDTAuthor
        = some (some r1) ∧
      OpenRepository 4 (some chainABC)
        [⟨1, 100, 100, []⟩, ⟨2, 50, 50, [1]⟩, ⟨3, 90, 90, [2]⟩] TypeDTAuthor
        = some (some r2) ∧
      List.Perm [(⟨3, 90, 90, [2]⟩ : Commit), ⟨2, 50, 50, [1]⟩, ⟨1, 100, 100, []⟩]
        [⟨1, 100, 100, []⟩, ⟨2, 50, 50, [1]⟩, ⟨3, 90, 90, [2]⟩] ∧
      mapGet r1.changes 3 = some ⟨3, 90, 102, 2⟩ ∧ mapGet r2.changes 3 = none ∧
      r1.changes ≠ r2.changes :=
  ⟨_, _, rfl, rfl, by decide, by decide, by decide, by decide⟩

end Gitcmttime
